import Mathlib

/-!
# Verification of the `doublell` doubly linked list

A shallow embedding of `src/DoubleLinkedList/index.ts`.  JavaScript object
references are modelled by an explicit heap: a node reference is an index
(`Nat`) into `Heap.nodes`, and a list reference is an index into
`Heap.lists`.  Each `Node` mirrors the tuple
`[list, value, previousNode, nextNode]` of the source; each `ListHdr`
mirrors the private fields `firstNode`, `lastNode`, `length` of
`DoubleLinkedList`.  All operations below are translated statement by
statement from the source methods.
-/

set_option autoImplicit false
set_option linter.unusedSectionVars false

namespace DLL

/-- A node: mirrors the source tuple `[list, value, prev, next]`
(`LIST = 0`, `VALUE = 1`, `PREV = 2`, `NEXT = 3`).  `owner` is the id of the
owning list (`undefined` is `none`), `prev`/`next` are node ids. -/
structure Node (α : Type) where
  owner : Option Nat
  value : α
  prev : Option Nat
  next : Option Nat
  deriving Repr, DecidableEq

/-- The private fields of a `DoubleLinkedList`: `firstNode`, `lastNode`,
`length`.  `length` is an `Int` because it is a JS number the code
increments and decrements. -/
structure ListHdr where
  firstNode : Option Nat
  lastNode : Option Nat
  length : Int
  deriving Repr, DecidableEq

/-- The heap: all allocated nodes and all allocated lists, addressed by
index.  Allocation appends; nothing is ever deallocated (JS garbage
collection is unobservable). -/
structure Heap (α : Type) where
  nodes : List (Node α)
  lists : List ListHdr
  deriving Repr, DecidableEq

variable {α : Type}

/-- Dereference a node id.  Out-of-range ids (which correspond to no JS
reference and never occur in well-formed states) yield a dummy node. -/
def Heap.nodeD [Inhabited α] (h : Heap α) (nid : Nat) : Node α :=
  h.nodes.getD nid ⟨none, default, none, none⟩

/-- Dereference a list id. -/
def Heap.hdr (h : Heap α) (lid : Nat) : ListHdr :=
  h.lists.getD lid ⟨none, none, 0⟩

/-- Overwrite the node stored at `nid`. -/
def Heap.setNode (h : Heap α) (nid : Nat) (n : Node α) : Heap α :=
  ⟨h.nodes.set nid n, h.lists⟩

/-- `node[NEXT] = v` -/
def Heap.setNext [Inhabited α] (h : Heap α) (nid : Nat) (v : Option Nat) : Heap α :=
  h.setNode nid { h.nodeD nid with next := v }

/-- `node[PREV] = v` -/
def Heap.setPrev [Inhabited α] (h : Heap α) (nid : Nat) (v : Option Nat) : Heap α :=
  h.setNode nid { h.nodeD nid with prev := v }

/-- `node[LIST] = v` -/
def Heap.setOwner [Inhabited α] (h : Heap α) (nid : Nat) (v : Option Nat) : Heap α :=
  h.setNode nid { h.nodeD nid with owner := v }

/-- Overwrite the header of list `lid`. -/
def Heap.setHdr (h : Heap α) (lid : Nat) (hd : ListHdr) : Heap α :=
  ⟨h.nodes, h.lists.set lid hd⟩

/-- Allocate a fresh node (a `new DoubleLinkedListNode(...)` / tuple
literal in the source); returns the new heap and the fresh id. -/
def Heap.alloc (h : Heap α) (n : Node α) : Heap α × Nat :=
  (⟨h.nodes ++ [n], h.lists⟩, h.nodes.length)

section Ops

variable [Inhabited α]

/-- `append(item)`: the new node is `[this, item, this.lastNode, undefined]`;
if `this.length === 0` then `this.firstNode = newNode` else
`this.lastNode![NEXT] = newNode`; then `this.lastNode = newNode` and
`this.length += 1`. -/
def append (h : Heap α) (lid : Nat) (item : α) : Heap α × Nat :=
  let hd := h.hdr lid
  let r := h.alloc ⟨some lid, item, hd.lastNode, none⟩
  let h1 := r.1
  let newId := r.2
  let h2 := if hd.length = 0 then h1.setHdr lid { hd with firstNode := some newId }
            else h1.setNext (hd.lastNode.getD 0) (some newId)
  let h3 := h2.setHdr lid
    { h2.hdr lid with lastNode := some newId, length := (h2.hdr lid).length + 1 }
  (h3, newId)

/-- `prepend(item)`: symmetric to `append`. -/
def prepend (h : Heap α) (lid : Nat) (item : α) : Heap α × Nat :=
  let hd := h.hdr lid
  let r := h.alloc ⟨some lid, item, none, hd.firstNode⟩
  let h1 := r.1
  let newId := r.2
  let h2 := if hd.length = 0 then h1.setHdr lid { hd with lastNode := some newId }
            else h1.setPrev (hd.firstNode.getD 0) (some newId)
  let h3 := h2.setHdr lid
    { h2.hdr lid with firstNode := some newId, length := (h2.hdr lid).length + 1 }
  (h3, newId)

/-- The common tail of `remove`: clear `node[PREV]`, `node[NEXT]`,
`node[LIST]`, decrement `this.length`, return `true`. -/
def removeFinish (h : Heap α) (lid : Nat) (nid : Nat) : Heap α × Bool :=
  let h1 := ((h.setPrev nid none).setNext nid none).setOwner nid none
  let h2 := h1.setHdr lid { h1.hdr lid with length := (h1.hdr lid).length - 1 }
  (h2, true)

/-- `remove(node)`: the source first tests `node === this.lastNode`, then
`node === this.firstNode`; only the middle branch performs the
`node[LIST] !== this` wrong-list check. -/
def remove (h : Heap α) (lid : Nat) (nid : Nat) : Heap α × Bool :=
  let hd := h.hdr lid
  if some nid = hd.lastNode then
    -- Removing tail
    match (h.nodeD nid).prev with
    | some p => removeFinish ((h.setHdr lid { hd with lastNode := some p }).setNext p none) lid nid
    | none => removeFinish (h.setHdr lid { hd with lastNode := none, firstNode := none }) lid nid
  else if some nid = hd.firstNode then
    -- Removing head
    match (h.nodeD nid).next with
    | some q => removeFinish ((h.setHdr lid { hd with firstNode := some q }).setPrev q none) lid nid
    | none => removeFinish (h.setHdr lid { hd with firstNode := none, lastNode := none }) lid nid
  else if (h.nodeD nid).owner ≠ some lid then (h, false)
  else
    -- Removing middle: `prev![NEXT] = next; next![PREV] = prev`
    let n := h.nodeD nid
    removeFinish ((h.setNext (n.prev.getD 0) n.next).setPrev (n.next.getD 0) n.prev) lid nid

/-- `insertAfterNode(node, item)`: wrong-list guard, delegation to `append`
when `this.lastNode === node`, otherwise splice the fresh node between
`node` and `node[NEXT]`. -/
def insertAfterNode (h : Heap α) (lid : Nat) (nid : Nat) (item : α) : Heap α × Option Nat :=
  if (h.nodeD nid).owner ≠ some lid then (h, none)
  else if (h.hdr lid).lastNode = some nid then
    let r := append h lid item
    (r.1, some r.2)
  else
    let n := h.nodeD nid
    let r := h.alloc ⟨some lid, item, some nid, n.next⟩
    let h2 := (r.1.setPrev (n.next.getD 0) (some r.2)).setNext nid (some r.2)
    let h3 := h2.setHdr lid { h2.hdr lid with length := (h2.hdr lid).length + 1 }
    (h3, some r.2)

/-- `insertBeforeNode(node, item)`: wrong-list guard, delegation to
`prepend` when `this.firstNode === node`, otherwise splice the fresh node
between `node[PREV]` and `node`. -/
def insertBeforeNode (h : Heap α) (lid : Nat) (nid : Nat) (item : α) : Heap α × Option Nat :=
  if (h.nodeD nid).owner ≠ some lid then (h, none)
  else if (h.hdr lid).firstNode = some nid then
    let r := prepend h lid item
    (r.1, some r.2)
  else
    let n := h.nodeD nid
    let r := h.alloc ⟨some lid, item, n.prev, some nid⟩
    let h2 := (r.1.setNext (n.prev.getD 0) (some r.2)).setPrev nid (some r.2)
    let h3 := h2.setHdr lid { h2.hdr lid with length := (h2.hdr lid).length + 1 }
    (h3, some r.2)

/-- `clear()`: `while (this.firstNode !== undefined) this.remove(this.firstNode)`.
The loop terminates because each removal shortens the chain; the fuel
`h.nodes.length` is enough in any well-formed state. -/
def clearFuel (h : Heap α) (lid : Nat) : Nat → Heap α
  | 0 => h
  | fuel + 1 =>
    match (h.hdr lid).firstNode with
    | none => h
    | some nid => clearFuel (remove h lid nid).1 lid fuel

def clear (h : Heap α) (lid : Nat) : Heap α :=
  clearFuel h lid h.nodes.length

/-- `pop()`: read the tail value then `remove` the tail. -/
def pop (h : Heap α) (lid : Nat) : Heap α × Option α :=
  match (h.hdr lid).lastNode with
  | none => (h, none)
  | some nid => ((remove h lid nid).1, some (h.nodeD nid).value)

/-- `shift()`: read the head value then `remove` the head. -/
def shift (h : Heap α) (lid : Nat) : Heap α × Option α :=
  match (h.hdr lid).firstNode with
  | none => (h, none)
  | some nid => ((remove h lid nid).1, some (h.nodeD nid).value)

/-- `push(item)`: alias for `append`. -/
def push (h : Heap α) (lid : Nat) (item : α) : Heap α × Nat :=
  append h lid item

/-- `unshift(item)`: alias for `prepend`. -/
def unshift (h : Heap α) (lid : Nat) (item : α) : Heap α × Nat :=
  prepend h lid item

/-- The loop `for (let i = 0; i < k && current; i += 1) current = current[NEXT]`,
returning the final `current`. -/
def walkNext (h : Heap α) : Option Nat → Nat → Option Nat
  | cur, 0 => cur
  | none, _ + 1 => none
  | some nid, k + 1 => walkNext h (h.nodeD nid).next k

/-- The symmetric backward loop over `current[PREV]`. -/
def walkPrev (h : Heap α) : Option Nat → Nat → Option Nat
  | cur, 0 => cur
  | none, _ + 1 => none
  | some nid, k + 1 => walkPrev h (h.nodeD nid).prev k

/-- `getNodeAt(index)`: negative-index normalization, bounds check, then a
traversal from whichever end is closer. -/
def getNodeAt (h : Heap α) (lid : Nat) (index : Int) : Option Nat :=
  let length := (h.hdr lid).length
  let actualIndex := if index < 0 then length + index else index
  if actualIndex < 0 ∨ actualIndex ≥ length then none
  else
    let fromHead := actualIndex
    let fromTail := length - 1 - actualIndex
    if fromHead ≤ fromTail then walkNext h (h.hdr lid).firstNode fromHead.toNat
    else walkPrev h (h.hdr lid).lastNode fromTail.toNat

/-- `get(index)`: `this.getNodeAt(index)?.[VALUE]`. -/
def get (h : Heap α) (lid : Nat) (index : Int) : Option α :=
  (getNodeAt h lid index).map fun nid => (h.nodeD nid).value

/-- The `while (cursor !== undefined)` collection loop of `toArray`,
fuelled (the chain of a well-formed list is shorter than the node store). -/
def walkVals (h : Heap α) : Option Nat → Nat → List α
  | _, 0 => []
  | none, _ + 1 => []
  | some nid, fuel + 1 => (h.nodeD nid).value :: walkVals h (h.nodeD nid).next fuel

/-- `toArray()`: the values from `firstNode` following `NEXT`. -/
def toArray (h : Heap α) (lid : Nat) : List α :=
  walkVals h (h.hdr lid).firstNode h.nodes.length

/-- The symmetric backward collection loop (used to state that the
backward reachable count matches the forward one). -/
def walkValsBack (h : Heap α) : Option Nat → Nat → List α
  | _, 0 => []
  | none, _ + 1 => []
  | some nid, fuel + 1 => (h.nodeD nid).value :: walkValsBack h (h.nodeD nid).prev fuel

/-- The skip-ahead loop of `indexOf`:
`while (cursor !== undefined && index < fromIndex) { cursor = cursor[NEXT]; index += 1 }`. -/
def skipToIndex (h : Heap α) (fromIndex : Int) : Option Nat → Int → Option Nat × Int
  | none, index => (none, index)
  | some nid, index =>
    if index < fromIndex then skipToIndex h fromIndex (h.nodeD nid).next (index + 1)
    else (some nid, index)
  termination_by _cur index => (fromIndex - index).toNat
  decreasing_by omega

/-- The search loop of `indexOf`, fuelled. -/
def indexOfLoop [DecidableEq α] (h : Heap α) (x : α) : Option Nat → Int → Nat → Int
  | _, _, 0 => -1
  | none, _, _ + 1 => -1
  | some nid, index, fuel + 1 =>
    if (h.nodeD nid).value = x then index
    else indexOfLoop h x (h.nodeD nid).next (index + 1) fuel

/-- `indexOf(searchElement, fromIndex = 0)`. -/
def indexOf [DecidableEq α] (h : Heap α) (lid : Nat) (x : α) (fromIndex : Int) : Int :=
  let r := skipToIndex h fromIndex (h.hdr lid).firstNode 0
  indexOfLoop h x r.1 r.2 h.nodes.length

/-- `includes(searchElement, fromIndex = 0)`: `this.indexOf(...) !== -1`. -/
def includes [DecidableEq α] (h : Heap α) (lid : Nat) (x : α) (fromIndex : Int) : Bool :=
  indexOf h lid x fromIndex ≠ -1

/-- The polymorphic `start` parameter of `splice`:
`number | DoubleLinkedListNode | undefined`. -/
inductive SpliceStart where
  | undef : SpliceStart
  | idx : Int → SpliceStart
  | node : Nat → SpliceStart
  deriving Repr, DecidableEq

/-- The removal loop of `splice`:
`for (let i = 0; i < deleteCount && nodeToRemove; i += 1)` capturing
`nextNode`, appending the removed value to `removed`, and removing.
Returns (heap, removed values in order, final `nodeToRemove`). -/
def spliceRemoveLoop (h : Heap α) (lid : Nat) : Option Nat → Nat → Heap α × List α × Option Nat
  | cur, 0 => (h, [], cur)
  | none, _ + 1 => (h, [], none)
  | some nid, k + 1 =>
    let nextNode := (h.nodeD nid).next
    let v := (h.nodeD nid).value
    let r := spliceRemoveLoop (remove h lid nid).1 lid nextNode k
    (r.1, v :: r.2.1, r.2.2)

/-- The insertion loop of `splice`: the first item goes through
`insertBeforeNode(nodeToRemove, item)`, later items through
`insertAfterNode(lastInserted, item)`; `lastInserted` is threaded as an
`Option` exactly as in the source. -/
def spliceInsertLoop (h : Heap α) (lid : Nat) (anchor : Nat) :
    Option Nat → List α → Heap α
  | _, [] => h
  | some li, item :: rest =>
    let r := insertAfterNode h lid li item
    spliceInsertLoop r.1 lid anchor r.2 rest
  | none, item :: rest =>
    let r := insertBeforeNode h lid anchor item
    spliceInsertLoop r.1 lid anchor r.2 rest

/-- The append-at-end branch of `splice`'s insertion phase. -/
def appendAll (h : Heap α) (lid : Nat) : List α → Heap α
  | [] => h
  | item :: rest => appendAll (append h lid item).1 lid rest

/-- The prep phase of `splice`: normalize the polymorphic `start` to a
`startNode`.  The outer `none` is the early `return new DoubleLinkedList()`
taken when `start` is a node of a different list. -/
def spliceResolve (h : Heap α) (lid : Nat) : SpliceStart → Option (Option Nat)
  | .undef => some none
  | .idx i =>
    let length := (h.hdr lid).length
    let actualStart := if i < 0 then max 0 (length + i) else min i length
    some (if actualStart ≥ length then none else getNodeAt h lid actualStart)
  | .node nid =>
    if (h.nodeD nid).owner ≠ some lid then none else some (some nid)

/-- The removal and insertion phases of `splice` after `start` has been
resolved to `startNode`. -/
def spliceRun (h : Heap α) (lid : Nat) (startNode : Option Nat) (deleteCount : Int)
    (items : List α) : Heap α × List α :=
  let r := spliceRemoveLoop h lid startNode deleteCount.toNat
  let h1 := r.1
  let removedVals := r.2.1
  let nodeToRemove := r.2.2
  let h2 :=
    if items.length > 0 then
      match nodeToRemove with
      | some ntr => spliceInsertLoop h1 lid ntr none items
      | none => appendAll h1 lid items
    else h1
  (h2, removedVals)

/-- `splice(start, deleteCount = 0, ...items)`; returns the mutated heap
and the values of the removed nodes in removal order (the contents of the
`removed` result list). -/
def splice (h : Heap α) (lid : Nat) (start : SpliceStart) (deleteCount : Int)
    (items : List α) : Heap α × List α :=
  match spliceResolve h lid start with
  | none => (h, [])
  | some startNode => spliceRun h lid startNode deleteCount items

/-- The constructor `new DoubleLinkedList(...items)`: allocate a fresh
empty list, then `for (const item of items) this.append(item)` (guarded by
`items.length > 0` in the source).  Returns the heap and the new list id. -/
def newList (h : Heap α) : Heap α × Nat :=
  (⟨h.nodes, h.lists ++ [⟨none, none, 0⟩]⟩, h.lists.length)

def constructList (h : Heap α) (items : List α) : Heap α × Nat :=
  let r := newList h
  if items.length > 0 then (appendAll r.1 r.2 items, r.2) else r

end Ops

/-! ## Abstraction layer: spines, chain segments, and the operation
language used to state the global invariant -/

/-- First element of `ns`, or `q` when `ns` is empty. -/
def headOr (ns : List Nat) (q : Option Nat) : Option Nat :=
  match ns with
  | [] => q
  | m :: _ => some m

/-- Last element of `ns`, or `p` when `ns` is empty. -/
def lastOr (ns : List Nat) (p : Option Nat) : Option Nat :=
  match ns.getLast? with
  | some m => some m
  | none => p

/-- Doubly-linked segment predicate. -/
def ChainSeg [Inhabited α] (h : Heap α) (lid : Nat) : Option Nat → List Nat → Option Nat → Prop
  | _, [], _ => True
  | p, nid :: rest, q =>
    nid < h.nodes.length ∧ (h.nodeD nid).owner = some lid ∧
    (h.nodeD nid).prev = p ∧ (h.nodeD nid).next = headOr rest q ∧
    ChainSeg h lid (some nid) rest q

def chainSegDec [Inhabited α] (h : Heap α) (lid : Nat) :
    (p : Option Nat) → (ns : List Nat) → (q : Option Nat) → Decidable (ChainSeg h lid p ns q)
  | _, [], _ => .isTrue trivial
  | p, nid :: rest, q =>
    have : Decidable (ChainSeg h lid (some nid) rest q) := chainSegDec h lid (some nid) rest q
    decidable_of_iff (nid < h.nodes.length ∧ (h.nodeD nid).owner = some lid ∧
      (h.nodeD nid).prev = p ∧ (h.nodeD nid).next = headOr rest q ∧
      ChainSeg h lid (some nid) rest q) Iff.rfl

instance [Inhabited α] (h : Heap α) (lid : Nat) (p : Option Nat) (ns : List Nat)
    (q : Option Nat) : Decidable (ChainSeg h lid p ns q) := chainSegDec h lid p ns q

/-- `ListRep h lid ns`: list `lid` exists, its header fields agree with the
spine `ns`, and `ns` is a doubly linked chain from `none` to `none`. -/
structure ListRep [Inhabited α] (h : Heap α) (lid : Nat) (ns : List Nat) : Prop where
  lid_lt : lid < h.lists.length
  first_eq : (h.hdr lid).firstNode = ns.head?
  last_eq : (h.hdr lid).lastNode = ns.getLast?
  len_eq : (h.hdr lid).length = ns.length
  chain : ChainSeg h lid none ns none
  nodup : ns.Nodup

instance [Inhabited α] (h : Heap α) (lid : Nat) (ns : List Nat) : Decidable (ListRep h lid ns) :=
  decidable_of_iff (lid < h.lists.length ∧ (h.hdr lid).firstNode = ns.head? ∧
      (h.hdr lid).lastNode = ns.getLast? ∧ (h.hdr lid).length = ns.length ∧
      ChainSeg h lid none ns none ∧ ns.Nodup)
    ⟨fun ⟨a, b, c, d, e, f⟩ => ⟨a, b, c, d, e, f⟩, fun ⟨a, b, c, d, e, f⟩ => ⟨a, b, c, d, e, f⟩⟩

/-- The values along a spine. -/
def vals [Inhabited α] (h : Heap α) (ns : List Nat) : List α :=
  ns.map fun nid => (h.nodeD nid).value

/-- `StartAt h lid ns start s` relates a `splice` start argument (applied to
a list with spine `ns`) with the position `s` it resolves to: `undefined`
means the end of the list, an index is clamped to `[0, length]`, and a node
owned by the list stands at its own position. -/
def StartAt (ns : List Nat) : SpliceStart → Nat → Prop
  | .undef, s => s = ns.length
  | .idx i, s =>
    (s : Int) = if i < 0 then max 0 ((ns.length : Int) + i) else min i (ns.length : Int)
  | .node nid, s => ns[s]? = some nid

/-- One call to a public mutating method, with arbitrary (possibly stale
or foreign) node arguments. -/
inductive Op (α : Type) where
  | appendOp (v : α)
  | prependOp (v : α)
  | insertAfterOp (nid : Nat) (v : α)
  | insertBeforeOp (nid : Nat) (v : α)
  | removeOp (nid : Nat)
  | spliceOp (start : SpliceStart) (deleteCount : Int) (items : List α)
  | clearOp
  | popOp
  | shiftOp
  | pushOp (v : α)
  | unshiftOp (v : α)

def runOp [Inhabited α] (h : Heap α) (lid : Nat) : Op α → Heap α
  | .appendOp v => (append h lid v).1
  | .prependOp v => (prepend h lid v).1
  | .insertAfterOp nid v => (insertAfterNode h lid nid v).1
  | .insertBeforeOp nid v => (insertBeforeNode h lid nid v).1
  | .removeOp nid => (remove h lid nid).1
  | .spliceOp start deleteCount items => (splice h lid start deleteCount items).1
  | .clearOp => clear h lid
  | .popOp => (pop h lid).1
  | .shiftOp => (shift h lid).1
  | .pushOp v => (push h lid v).1
  | .unshiftOp v => (unshift h lid v).1

def runOps [Inhabited α] (h : Heap α) (lid : Nat) : List (Op α) → Heap α
  | [] => h
  | op :: rest => runOps (runOp h lid op) lid rest

/-- The global invariant: the list is represented by some spine, and every
node claiming to be owned by the list is on that spine. -/
def Inv [Inhabited α] (h : Heap α) (lid : Nat) (ns : List Nat) : Prop :=
  ListRep h lid ns ∧
  ∀ m, m < h.nodes.length → (h.nodeD m).owner = some lid → m ∈ ns

instance [Inhabited α] (h : Heap α) (lid : Nat) (ns : List Nat) : Decidable (Inv h lid ns) :=
  inferInstanceAs (Decidable (ListRep h lid ns ∧
    ∀ m, m < h.nodes.length → (h.nodeD m).owner = some lid → m ∈ ns))

instance (ns : List Nat) (start : SpliceStart) (s : Nat) : Decidable (StartAt ns start s) :=
  match start with
  | .undef => inferInstanceAs (Decidable (s = ns.length))
  | .idx i => inferInstanceAs (Decidable ((s : Int) =
      if i < 0 then max 0 ((ns.length : Int) + i) else min i (ns.length : Int)))
  | .node nid => inferInstanceAs (Decidable (ns[s]? = some nid))

/-- `new DoubleLinkedList()` on an empty heap, followed by an arbitrary
sequence of public mutating calls on the resulting list (its id is `0`). -/
def runFromEmpty [Inhabited α] (ops : List (Op α)) : Heap α :=
  runOps (newList (⟨[], []⟩ : Heap α)).1 0 ops

/-- The backward analogue of `toArray`: the values collected from
`lastNode` following `PREV` (the nodes reachable from the tail). -/
def toArrayBack [Inhabited α] (h : Heap α) (lid : Nat) : List α :=
  walkValsBack h (h.hdr lid).lastNode h.nodes.length

/-- A concrete heap for exercising the statements below: list `0` holds the
values `[10, 20, 30, 40]` in nodes `0, 1, 2, 3`. -/
def W : Heap Nat := (constructList ⟨[], []⟩ [10, 20, 30, 40]).1

/-- `W` extended with a second list (id `1`, nodes `4, 5`): its nodes are
foreign to list `0`. -/
def W2 : Heap Nat := (constructList W [50, 60]).1

/-! ## Heap accessor / mutator lemmas -/

section HeapLemmas

variable [Inhabited α] (h : Heap α)

theorem Heap.nodeD_def (nid : Nat) :
    h.nodeD nid = (h.nodes[nid]?).getD ⟨none, default, none, none⟩ :=
  List.getD_eq_getElem?_getD _ _ _

theorem Heap.hdr_def (lid : Nat) :
    h.hdr lid = (h.lists[lid]?).getD ⟨none, none, 0⟩ :=
  List.getD_eq_getElem?_getD _ _ _

@[simp] theorem Heap.nodes_length_setNode (nid : Nat) (n : Node α) :
    ((h.setNode nid n).nodes).length = h.nodes.length := by
  simp [Heap.setNode]

@[simp] theorem Heap.lists_setNode (nid : Nat) (n : Node α) :
    (h.setNode nid n).lists = h.lists := rfl

@[simp] theorem Heap.hdr_setNode (nid : Nat) (n : Node α) (lid : Nat) :
    (h.setNode nid n).hdr lid = h.hdr lid := rfl

theorem Heap.nodeD_setNode_self (nid : Nat) (n : Node α) (hlt : nid < h.nodes.length) :
    (h.setNode nid n).nodeD nid = n := by
  simp [Heap.nodeD_def, Heap.setNode, List.getElem?_set_self hlt]

theorem Heap.nodeD_setNode_ne (nid : Nat) (n : Node α) (m : Nat) (hne : nid ≠ m) :
    (h.setNode nid n).nodeD m = h.nodeD m := by
  simp [Heap.nodeD_def, Heap.setNode, List.getElem?_set_ne hne]

@[simp] theorem Heap.nodes_setHdr (lid : Nat) (hd : ListHdr) :
    (h.setHdr lid hd).nodes = h.nodes := rfl

@[simp] theorem Heap.nodeD_setHdr (lid : Nat) (hd : ListHdr) (m : Nat) :
    (h.setHdr lid hd).nodeD m = h.nodeD m := rfl

@[simp] theorem Heap.lists_length_setHdr (lid : Nat) (hd : ListHdr) :
    ((h.setHdr lid hd).lists).length = h.lists.length := by
  simp [Heap.setHdr]

theorem Heap.hdr_setHdr_self (lid : Nat) (hd : ListHdr) (hlt : lid < h.lists.length) :
    (h.setHdr lid hd).hdr lid = hd := by
  simp [Heap.hdr_def, Heap.setHdr, List.getElem?_set_self hlt]

theorem Heap.hdr_setHdr_ne (lid : Nat) (hd : ListHdr) (lid' : Nat) (hne : lid ≠ lid') :
    (h.setHdr lid hd).hdr lid' = h.hdr lid' := by
  simp [Heap.hdr_def, Heap.setHdr, List.getElem?_set_ne hne]

@[simp] theorem Heap.nodes_length_alloc (n : Node α) :
    ((h.alloc n).1.nodes).length = h.nodes.length + 1 := by
  simp [Heap.alloc]

@[simp] theorem Heap.lists_alloc (n : Node α) : (h.alloc n).1.lists = h.lists := rfl

@[simp] theorem Heap.hdr_alloc (n : Node α) (lid : Nat) :
    (h.alloc n).1.hdr lid = h.hdr lid := rfl

@[simp] theorem Heap.alloc_snd (n : Node α) : (h.alloc n).2 = h.nodes.length := rfl

theorem Heap.nodeD_alloc_old (n : Node α) (m : Nat) (hlt : m < h.nodes.length) :
    (h.alloc n).1.nodeD m = h.nodeD m := by
  simp [Heap.nodeD_def, Heap.alloc, List.getElem?_append_left hlt]

theorem Heap.nodeD_alloc_new (n : Node α) :
    (h.alloc n).1.nodeD h.nodes.length = n := by
  simp [Heap.nodeD_def, Heap.alloc, List.getElem?_concat_length]

theorem Heap.nodeD_out (m : Nat) (hge : h.nodes.length ≤ m) :
    h.nodeD m = ⟨none, default, none, none⟩ := by
  simp [Heap.nodeD_def, List.getElem?_eq_none hge]

/-! Derived setter lemmas. -/

@[simp] theorem Heap.nodes_length_setNext (nid : Nat) (v : Option Nat) :
    ((h.setNext nid v).nodes).length = h.nodes.length := by
  simp [Heap.setNext]

@[simp] theorem Heap.nodes_length_setPrev (nid : Nat) (v : Option Nat) :
    ((h.setPrev nid v).nodes).length = h.nodes.length := by
  simp [Heap.setPrev]

@[simp] theorem Heap.nodes_length_setOwner (nid : Nat) (v : Option Nat) :
    ((h.setOwner nid v).nodes).length = h.nodes.length := by
  simp [Heap.setOwner]

@[simp] theorem Heap.hdr_setNext (nid : Nat) (v : Option Nat) (lid : Nat) :
    (h.setNext nid v).hdr lid = h.hdr lid := rfl

@[simp] theorem Heap.hdr_setPrev (nid : Nat) (v : Option Nat) (lid : Nat) :
    (h.setPrev nid v).hdr lid = h.hdr lid := rfl

@[simp] theorem Heap.hdr_setOwner (nid : Nat) (v : Option Nat) (lid : Nat) :
    (h.setOwner nid v).hdr lid = h.hdr lid := rfl

@[simp] theorem Heap.lists_setNext (nid : Nat) (v : Option Nat) :
    (h.setNext nid v).lists = h.lists := rfl

@[simp] theorem Heap.lists_setPrev (nid : Nat) (v : Option Nat) :
    (h.setPrev nid v).lists = h.lists := rfl

@[simp] theorem Heap.lists_setOwner (nid : Nat) (v : Option Nat) :
    (h.setOwner nid v).lists = h.lists := rfl

theorem Heap.nodeD_setNext_self (nid : Nat) (v : Option Nat) (hlt : nid < h.nodes.length) :
    (h.setNext nid v).nodeD nid = { h.nodeD nid with next := v } :=
  h.nodeD_setNode_self _ _ hlt

theorem Heap.nodeD_setNext_ne (nid : Nat) (v : Option Nat) (m : Nat) (hne : nid ≠ m) :
    (h.setNext nid v).nodeD m = h.nodeD m :=
  h.nodeD_setNode_ne _ _ _ hne

theorem Heap.nodeD_setPrev_self (nid : Nat) (v : Option Nat) (hlt : nid < h.nodes.length) :
    (h.setPrev nid v).nodeD nid = { h.nodeD nid with prev := v } :=
  h.nodeD_setNode_self _ _ hlt

theorem Heap.nodeD_setPrev_ne (nid : Nat) (v : Option Nat) (m : Nat) (hne : nid ≠ m) :
    (h.setPrev nid v).nodeD m = h.nodeD m :=
  h.nodeD_setNode_ne _ _ _ hne

theorem Heap.nodeD_setOwner_self (nid : Nat) (v : Option Nat) (hlt : nid < h.nodes.length) :
    (h.setOwner nid v).nodeD nid = { h.nodeD nid with owner := v } :=
  h.nodeD_setNode_self _ _ hlt

theorem Heap.nodeD_setOwner_ne (nid : Nat) (v : Option Nat) (m : Nat) (hne : nid ≠ m) :
    (h.setOwner nid v).nodeD m = h.nodeD m :=
  h.nodeD_setNode_ne _ _ _ hne

end HeapLemmas

/-! ## The chain representation predicate

`ChainSeg h lid p ns q` says the node ids `ns` form a doubly linked
segment of list `lid` inside `h`: the first node's `prev` is `p`,
consecutive nodes point at each other, and the last node's `next` is `q`.
A whole list is a segment from `none` to `none` matching the header. -/

@[simp] theorem headOr_nil (q : Option Nat) : headOr [] q = q := rfl

@[simp] theorem headOr_cons (m : Nat) (ns : List Nat) (q : Option Nat) :
    headOr (m :: ns) q = some m := rfl

@[simp] theorem lastOr_nil (p : Option Nat) : lastOr [] p = p := rfl

@[simp] theorem lastOr_concat (ns : List Nat) (x : Nat) (p : Option Nat) :
    lastOr (ns ++ [x]) p = some x := by
  simp [lastOr, List.getLast?_concat]

theorem lastOr_cons (x : Nat) (ns : List Nat) (p : Option Nat) :
    lastOr (x :: ns) p = lastOr ns (some x) := by
  rcases List.eq_nil_or_concat' ns with rfl | ⟨xs, a, rfl⟩
  · rfl
  · rw [← List.cons_append, lastOr_concat, lastOr_concat]

theorem headOr_append (xs ys : List Nat) (q : Option Nat) :
    headOr (xs ++ ys) q = headOr xs (headOr ys q) := by
  cases xs <;> rfl

@[simp] theorem headOr_none (ns : List Nat) : headOr ns none = ns.head? := by
  cases ns <;> rfl

@[simp] theorem lastOr_none (ns : List Nat) : lastOr ns none = ns.getLast? := by
  simp only [lastOr]
  cases ns.getLast? <;> rfl

section Chain

variable [Inhabited α]

@[simp] theorem chainSeg_nil (h : Heap α) (lid : Nat) (p q : Option Nat) :
    ChainSeg h lid p [] q := trivial

@[simp] theorem chainSeg_cons (h : Heap α) (lid : Nat) (p q : Option Nat)
    (nid : Nat) (rest : List Nat) :
    ChainSeg h lid p (nid :: rest) q ↔
      nid < h.nodes.length ∧ (h.nodeD nid).owner = some lid ∧
      (h.nodeD nid).prev = p ∧ (h.nodeD nid).next = headOr rest q ∧
      ChainSeg h lid (some nid) rest q := Iff.rfl

theorem chainSeg_append {h : Heap α} {lid : Nat} {p q : Option Nat} (xs ys : List Nat) :
    ChainSeg h lid p (xs ++ ys) q ↔
      ChainSeg h lid p xs (headOr ys q) ∧ ChainSeg h lid (lastOr xs p) ys q := by
  induction xs generalizing p with
  | nil => simp
  | cons x xs ih =>
    simp only [List.cons_append, chainSeg_cons, headOr_append, lastOr_cons, ih, and_assoc]

theorem chainSeg_mem {h : Heap α} {lid : Nat} {p q : Option Nat} {ns : List Nat}
    (hc : ChainSeg h lid p ns q) {nid : Nat} (hm : nid ∈ ns) :
    nid < h.nodes.length ∧ (h.nodeD nid).owner = some lid := by
  induction ns generalizing p with
  | nil => cases hm
  | cons x xs ih =>
    obtain ⟨h1, h2, _, _, h5⟩ := hc
    rcases List.mem_cons.1 hm with rfl | hm'
    · exact ⟨h1, h2⟩
    · exact ih h5 hm'

theorem chainSeg_not_mem {h : Heap α} {lid : Nat} {p q : Option Nat} {ns : List Nat}
    (hc : ChainSeg h lid p ns q) {nid : Nat} (ho : (h.nodeD nid).owner ≠ some lid) :
    nid ∉ ns := fun hm => ho (chainSeg_mem hc hm).2

/-- A segment only depends on the nodes it contains. -/
theorem chainSeg_congr {h h' : Heap α} {lid : Nat} {p q : Option Nat} {ns : List Nat}
    (hlen : h.nodes.length ≤ h'.nodes.length)
    (heq : ∀ nid ∈ ns, h'.nodeD nid = h.nodeD nid)
    (hc : ChainSeg h lid p ns q) : ChainSeg h' lid p ns q := by
  induction ns generalizing p with
  | nil => trivial
  | cons x xs ih =>
    obtain ⟨h1, h2, h3, h4, h5⟩ := hc
    have hx : h'.nodeD x = h.nodeD x := heq x (List.mem_cons_self ..)
    exact ⟨Nat.lt_of_lt_of_le h1 hlen, by rw [hx]; exact h2, by rw [hx]; exact h3,
      by rw [hx]; exact h4, ih (fun n hn => heq n (List.mem_cons_of_mem _ hn)) h5⟩

@[simp] theorem vals_nil (h : Heap α) : vals h [] = [] := rfl

@[simp] theorem vals_cons (h : Heap α) (x : Nat) (ns : List Nat) :
    vals h (x :: ns) = (h.nodeD x).value :: vals h ns := rfl

@[simp] theorem vals_append (h : Heap α) (xs ys : List Nat) :
    vals h (xs ++ ys) = vals h xs ++ vals h ys := List.map_append ..

@[simp] theorem vals_length (h : Heap α) (ns : List Nat) :
    (vals h ns).length = ns.length := List.length_map ..

theorem vals_congr {h h' : Heap α} {ns : List Nat}
    (heq : ∀ nid ∈ ns, (h'.nodeD nid).value = (h.nodeD nid).value) :
    vals h' ns = vals h ns := List.map_congr_left heq

/-! ### Walk lemmas: traversals over a chain reach the expected nodes -/

@[simp] theorem walkNext_zero (h : Heap α) (cur : Option Nat) : walkNext h cur 0 = cur := by
  cases cur <;> rfl

@[simp] theorem walkPrev_zero (h : Heap α) (cur : Option Nat) : walkPrev h cur 0 = cur := by
  cases cur <;> rfl

theorem walkNext_chainSeg {h : Heap α} {lid : Nat} {p q : Option Nat} {ns : List Nat}
    (hc : ChainSeg h lid p ns q) (k : Nat) (hk : k ≤ ns.length) :
    walkNext h (headOr ns q) k = headOr (ns.drop k) q := by
  induction ns generalizing p k with
  | nil =>
    have hk0 : k = 0 := by simpa using hk
    subst hk0
    simp
  | cons x xs ih =>
    obtain ⟨_, _, _, h4, h5⟩ := hc
    cases k with
    | zero => simp
    | succ k =>
      simp only [headOr_cons, walkNext, h4, List.drop_succ_cons]
      exact ih h5 k (Nat.le_of_succ_le_succ hk)

theorem walkPrev_chainSeg {h : Heap α} {lid : Nat} {p q : Option Nat} {ns : List Nat}
    (hc : ChainSeg h lid p ns q) (j : Nat) (hj : j ≤ ns.length) :
    walkPrev h (lastOr ns p) j = lastOr (ns.take (ns.length - j)) p := by
  induction j generalizing ns q with
  | zero => simp
  | succ j ih =>
    rcases List.eq_nil_or_concat' ns with rfl | ⟨xs, x, rfl⟩
    · simp at hj
    · have hsplit := (chainSeg_append xs [x]).1 hc
      obtain ⟨hxs, _, _, hprev, _, _⟩ := hsplit
      have hxlen : xs.length + 1 - (j + 1) = xs.length - j := by omega
      have hjle : j ≤ xs.length := by
        simpa using Nat.le_of_succ_le_succ (by simpa using hj)
      simp only [lastOr_concat, walkPrev, hprev, List.length_append, List.length_cons,
        List.length_nil, Nat.zero_add, hxlen]
      rw [List.take_append_of_le_length (by omega)]
      exact ih hxs hjle

theorem walkVals_chainSeg {h : Heap α} {lid : Nat} {p : Option Nat} {ns : List Nat}
    (hc : ChainSeg h lid p ns none) (fuel : Nat) (hf : ns.length ≤ fuel) :
    walkVals h ns.head? fuel = vals h ns := by
  induction ns generalizing p fuel with
  | nil =>
    cases fuel <;> rfl
  | cons x xs ih =>
    obtain ⟨_, _, _, h4, h5⟩ := hc
    cases fuel with
    | zero => simp at hf
    | succ fuel =>
      have hnext : (h.nodeD x).next = xs.head? := by simpa using h4
      simp only [List.head?_cons, walkVals, hnext, vals_cons]
      exact congrArg _ (ih h5 fuel (Nat.le_of_succ_le_succ hf))

end Chain

/-! ## Field-frame lemmas: a setter only changes its own field -/

section FieldFrame

variable [Inhabited α] (h : Heap α)

theorem Heap.setNode_out (nid : Nat) (n : Node α) (hge : h.nodes.length ≤ nid) :
    h.setNode nid n = h := by
  simp [Heap.setNode, List.set_eq_of_length_le hge]

@[simp] theorem Heap.value_setNext (nid : Nat) (w : Option Nat) (m : Nat) :
    ((h.setNext nid w).nodeD m).value = (h.nodeD m).value := by
  rcases Nat.lt_or_ge nid h.nodes.length with hlt | hge
  · rcases eq_or_ne nid m with rfl | hne
    · rw [h.nodeD_setNext_self _ _ hlt]
    · rw [h.nodeD_setNext_ne _ _ _ hne]
  · rw [Heap.setNext, h.setNode_out _ _ hge]

@[simp] theorem Heap.owner_setNext (nid : Nat) (w : Option Nat) (m : Nat) :
    ((h.setNext nid w).nodeD m).owner = (h.nodeD m).owner := by
  rcases Nat.lt_or_ge nid h.nodes.length with hlt | hge
  · rcases eq_or_ne nid m with rfl | hne
    · rw [h.nodeD_setNext_self _ _ hlt]
    · rw [h.nodeD_setNext_ne _ _ _ hne]
  · rw [Heap.setNext, h.setNode_out _ _ hge]

@[simp] theorem Heap.prev_setNext (nid : Nat) (w : Option Nat) (m : Nat) :
    ((h.setNext nid w).nodeD m).prev = (h.nodeD m).prev := by
  rcases Nat.lt_or_ge nid h.nodes.length with hlt | hge
  · rcases eq_or_ne nid m with rfl | hne
    · rw [h.nodeD_setNext_self _ _ hlt]
    · rw [h.nodeD_setNext_ne _ _ _ hne]
  · rw [Heap.setNext, h.setNode_out _ _ hge]

@[simp] theorem Heap.value_setPrev (nid : Nat) (w : Option Nat) (m : Nat) :
    ((h.setPrev nid w).nodeD m).value = (h.nodeD m).value := by
  rcases Nat.lt_or_ge nid h.nodes.length with hlt | hge
  · rcases eq_or_ne nid m with rfl | hne
    · rw [h.nodeD_setPrev_self _ _ hlt]
    · rw [h.nodeD_setPrev_ne _ _ _ hne]
  · rw [Heap.setPrev, h.setNode_out _ _ hge]

@[simp] theorem Heap.owner_setPrev (nid : Nat) (w : Option Nat) (m : Nat) :
    ((h.setPrev nid w).nodeD m).owner = (h.nodeD m).owner := by
  rcases Nat.lt_or_ge nid h.nodes.length with hlt | hge
  · rcases eq_or_ne nid m with rfl | hne
    · rw [h.nodeD_setPrev_self _ _ hlt]
    · rw [h.nodeD_setPrev_ne _ _ _ hne]
  · rw [Heap.setPrev, h.setNode_out _ _ hge]

@[simp] theorem Heap.next_setPrev (nid : Nat) (w : Option Nat) (m : Nat) :
    ((h.setPrev nid w).nodeD m).next = (h.nodeD m).next := by
  rcases Nat.lt_or_ge nid h.nodes.length with hlt | hge
  · rcases eq_or_ne nid m with rfl | hne
    · rw [h.nodeD_setPrev_self _ _ hlt]
    · rw [h.nodeD_setPrev_ne _ _ _ hne]
  · rw [Heap.setPrev, h.setNode_out _ _ hge]

@[simp] theorem Heap.value_setOwner (nid : Nat) (w : Option Nat) (m : Nat) :
    ((h.setOwner nid w).nodeD m).value = (h.nodeD m).value := by
  rcases Nat.lt_or_ge nid h.nodes.length with hlt | hge
  · rcases eq_or_ne nid m with rfl | hne
    · rw [h.nodeD_setOwner_self _ _ hlt]
    · rw [h.nodeD_setOwner_ne _ _ _ hne]
  · rw [Heap.setOwner, h.setNode_out _ _ hge]

@[simp] theorem Heap.prev_setOwner (nid : Nat) (w : Option Nat) (m : Nat) :
    ((h.setOwner nid w).nodeD m).prev = (h.nodeD m).prev := by
  rcases Nat.lt_or_ge nid h.nodes.length with hlt | hge
  · rcases eq_or_ne nid m with rfl | hne
    · rw [h.nodeD_setOwner_self _ _ hlt]
    · rw [h.nodeD_setOwner_ne _ _ _ hne]
  · rw [Heap.setOwner, h.setNode_out _ _ hge]

@[simp] theorem Heap.next_setOwner (nid : Nat) (w : Option Nat) (m : Nat) :
    ((h.setOwner nid w).nodeD m).next = (h.nodeD m).next := by
  rcases Nat.lt_or_ge nid h.nodes.length with hlt | hge
  · rcases eq_or_ne nid m with rfl | hne
    · rw [h.nodeD_setOwner_self _ _ hlt]
    · rw [h.nodeD_setOwner_ne _ _ _ hne]
  · rw [Heap.setOwner, h.setNode_out _ _ hge]

end FieldFrame

/-! ## Representation lemmas for the mutation primitives -/

section OpRep

variable [Inhabited α]

theorem listRep_mem_lt {h : Heap α} {lid : Nat} {ns : List Nat}
    (hrep : ListRep h lid ns) {m : Nat} (hm : m ∈ ns) : m < h.nodes.length :=
  (chainSeg_mem hrep.chain hm).1

theorem listRep_fresh_not_mem {h : Heap α} {lid : Nat} {ns : List Nat}
    (hrep : ListRep h lid ns) : h.nodes.length ∉ ns :=
  fun hm => absurd (listRep_mem_lt hrep hm) (Nat.lt_irrefl _)

/-- Effect of `append` on the spine: the fresh node id is appended. -/
theorem append_rep {h : Heap α} {lid : Nat} {ns : List Nat}
    (hrep : ListRep h lid ns) (v : α) :
    (append h lid v).2 = h.nodes.length ∧
    (append h lid v).1.nodes.length = h.nodes.length + 1 ∧
    (append h lid v).1.lists.length = h.lists.length ∧
    ((append h lid v).1.nodeD h.nodes.length).value = v ∧
    (∀ m, m < h.nodes.length → ((append h lid v).1.nodeD m).value = (h.nodeD m).value) ∧
    (∀ m, m ≠ h.nodes.length → ((append h lid v).1.nodeD m).owner = (h.nodeD m).owner) ∧
    ListRep (append h lid v).1 lid (ns ++ [h.nodes.length]) := by
  obtain ⟨hlid, hfirst, hlast, hlen, hchain, hnodup⟩ := hrep
  rcases List.eq_nil_or_concat' ns with rfl | ⟨xs, L, rfl⟩
  · -- empty list: the `length === 0` branch
    have hlen0 : (h.hdr lid).length = 0 := by simpa using hlen
    have hlast0 : (h.hdr lid).lastNode = none := by simpa using hlast
    have happ : append h lid v =
        (((h.alloc ⟨some lid, v, none, none⟩).1.setHdr lid
            { h.hdr lid with firstNode := some h.nodes.length }).setHdr lid
          { h.hdr lid with
            firstNode := some h.nodes.length
            lastNode := some h.nodes.length
            length := (h.hdr lid).length + 1 },
         h.nodes.length) := by
      simp only [append, Heap.alloc_snd]
      rw [if_pos hlen0, Heap.hdr_setHdr_self _ _ _ (by simpa using hlid)]
      simp [hlast0, hlen0]
    rw [happ]
    refine ⟨rfl, by simp, by simp, ?_, ?_, ?_, ?_⟩
    · simp [Heap.nodeD_alloc_new]
    · intro m hm
      simp [Heap.nodeD_alloc_old _ _ _ hm]
    · intro m hm
      rcases Nat.lt_or_ge m h.nodes.length with hlt | hge
      · simp [Heap.nodeD_alloc_old _ _ _ hlt]
      · have hge' : h.nodes.length + 1 ≤ m := by omega
        rw [Heap.nodeD_setHdr, Heap.nodeD_setHdr]
        rw [Heap.nodeD_out _ _ (by simpa using hge'), Heap.nodeD_out _ _ hge]
    · refine ⟨by simpa using hlid, ?_, ?_, ?_, ?_, ?_⟩
      · rw [Heap.hdr_setHdr_self _ _ _ (by simpa using hlid)]
        simp
      · rw [Heap.hdr_setHdr_self _ _ _ (by simpa using hlid)]
        simp
      · rw [Heap.hdr_setHdr_self _ _ _ (by simpa using hlid)]
        simp [hlen0]
      · refine ⟨by simp, ?_, ?_, ?_, trivial⟩ <;>
          simp [Heap.nodeD_alloc_new]
      · simp
  · -- nonempty list: the `lastNode![NEXT] = newNode` branch
    have hlast' : (h.hdr lid).lastNode = some L := by simpa using hlast
    have hlenne : ¬((h.hdr lid).length = 0) := by
      rw [hlen]
      simp only [List.length_append, List.length_cons, List.length_nil]
      omega
    have hLmem : L ∈ xs ++ [L] := by simp
    have hLlt : L < h.nodes.length := (chainSeg_mem hchain hLmem).1
    have hfreshne : ∀ m ∈ xs ++ [L], m ≠ h.nodes.length := by
      intro m hm
      exact Nat.ne_of_lt (chainSeg_mem hchain hm).1
    have happ : append h lid v =
        (((h.alloc ⟨some lid, v, some L, none⟩).1.setNext L (some h.nodes.length)).setHdr lid
          { h.hdr lid with
            lastNode := some h.nodes.length
            length := (h.hdr lid).length + 1 },
         h.nodes.length) := by
      simp only [append, Heap.alloc_snd]
      rw [if_neg hlenne]
      simp [hlast']
    rw [happ]
    set N := h.nodes.length with hN
    have hnodeN : ((h.alloc ⟨some lid, v, some L, none⟩).1.setNext L (some N)).nodeD N =
        ⟨some lid, v, some L, none⟩ := by
      rw [Heap.nodeD_setNext_ne _ _ _ _ (Nat.ne_of_lt hLlt), Heap.nodeD_alloc_new]
    have hnodeL : ((h.alloc ⟨some lid, v, some L, none⟩).1.setNext L (some N)).nodeD L =
        { h.nodeD L with next := some N } := by
      rw [Heap.nodeD_setNext_self _ _ _ (by simp; exact Nat.lt_succ_of_lt hLlt), Heap.nodeD_alloc_old _ _ _ hLlt]
    have hnodeOther : ∀ m, m ≠ L → m < N →
        ((h.alloc ⟨some lid, v, some L, none⟩).1.setNext L (some N)).nodeD m = h.nodeD m := by
      intro m hm hlt
      rw [Heap.nodeD_setNext_ne _ _ _ _ (Ne.symm hm), Heap.nodeD_alloc_old _ _ _ hlt]
    refine ⟨rfl, by simp, by simp, ?_, ?_, ?_, ?_⟩
    · simpa using congrArg Node.value hnodeN
    · intro m hm
      rcases eq_or_ne m L with rfl | hne
      · rw [Heap.nodeD_setHdr, hnodeL]
      · rw [Heap.nodeD_setHdr, hnodeOther m hne hm]
    · intro m hm
      rcases Nat.lt_or_ge m N with hlt | hge
      · rcases eq_or_ne m L with rfl | hne
        · rw [Heap.nodeD_setHdr, hnodeL]
        · rw [Heap.nodeD_setHdr, hnodeOther m hne hlt]
      · have hge' : N + 1 ≤ m := by omega
        rw [Heap.nodeD_setHdr, Heap.nodeD_out _ _ (by simpa using hge'), Heap.nodeD_out _ _ hge]
    · have hLnotxs : L ∉ xs := by
        intro hmem
        exact (List.nodup_append.1 hnodup).2.2 hmem (List.mem_singleton_self L)
      refine ⟨by simpa using hlid, ?_, ?_, ?_, ?_, ?_⟩
      · have hh : ((xs ++ [L]) ++ [N]).head? = (xs ++ [L]).head? :=
          List.head?_append_of_ne_nil _ (by simp)
        rw [Heap.hdr_setHdr_self _ _ _ (by simpa using hlid)]
        show (h.hdr lid).firstNode = _
        rw [hh, hfirst]
      · rw [Heap.hdr_setHdr_self _ _ _ (by simpa using hlid)]
        simp [List.getLast?_concat]
      · rw [Heap.hdr_setHdr_self _ _ _ (by simpa using hlid), hlen]
        simp only [List.length_append, List.length_cons, List.length_nil]
        push_cast
        omega
      · -- the chain
        have hsplit := (chainSeg_append xs [L]).1 hchain
        obtain ⟨hxs, hL1, hL2, hL3, hL4, -⟩ := hsplit
        rw [List.append_assoc]
        refine (chainSeg_append xs ([L] ++ [N])).2 ⟨?_, ?_⟩
        · refine chainSeg_congr (by simp) ?_ hxs
          intro nid hnid
          exact hnodeOther nid (fun he => hLnotxs (he ▸ hnid))
            (chainSeg_mem hchain (List.mem_append_left _ hnid)).1
        · refine (chainSeg_append [L] [N]).2 ⟨?_, ?_⟩
          · refine ⟨by simp [Nat.lt_succ_of_lt hLlt], ?_, ?_, ?_, trivial⟩ <;>
              rw [Heap.nodeD_setHdr, hnodeL]
            · exact hL2
            · exact hL3
            · rfl
          · refine ⟨by simp, ?_, ?_, ?_, trivial⟩ <;>
              rw [Heap.nodeD_setHdr, hnodeN]
            · show some L = lastOr ([] ++ [L]) (lastOr xs none)
              rw [lastOr_concat]
            · rfl
      · have hNn : N ∉ xs ++ [L] :=
          listRep_fresh_not_mem ⟨hlid, hfirst, hlast, hlen, hchain, hnodup⟩
        rw [List.nodup_append]
        refine ⟨hnodup, List.nodup_singleton _, ?_⟩
        intro x hx hx2
        rw [List.mem_singleton.1 hx2] at hx
        exact hNn hx

/-- Effect of `prepend` on the spine: the fresh node id is consed. -/
theorem prepend_rep {h : Heap α} {lid : Nat} {ns : List Nat}
    (hrep : ListRep h lid ns) (v : α) :
    (prepend h lid v).2 = h.nodes.length ∧
    (prepend h lid v).1.nodes.length = h.nodes.length + 1 ∧
    (prepend h lid v).1.lists.length = h.lists.length ∧
    ((prepend h lid v).1.nodeD h.nodes.length).value = v ∧
    (∀ m, m < h.nodes.length → ((prepend h lid v).1.nodeD m).value = (h.nodeD m).value) ∧
    (∀ m, m ≠ h.nodes.length → ((prepend h lid v).1.nodeD m).owner = (h.nodeD m).owner) ∧
    ListRep (prepend h lid v).1 lid (h.nodes.length :: ns) := by
  obtain ⟨hlid, hfirst, hlast, hlen, hchain, hnodup⟩ := hrep
  cases ns with
  | nil =>
    have hlen0 : (h.hdr lid).length = 0 := by simpa using hlen
    have hfirst0 : (h.hdr lid).firstNode = none := by simpa using hfirst
    have happ : prepend h lid v =
        (((h.alloc ⟨some lid, v, none, none⟩).1.setHdr lid
            { h.hdr lid with lastNode := some h.nodes.length }).setHdr lid
          { h.hdr lid with
            firstNode := some h.nodes.length
            lastNode := some h.nodes.length
            length := (h.hdr lid).length + 1 },
         h.nodes.length) := by
      simp only [prepend, Heap.alloc_snd]
      rw [if_pos hlen0, Heap.hdr_setHdr_self _ _ _ (by simpa using hlid)]
      simp [hfirst0, hlen0]
    rw [happ]
    refine ⟨rfl, by simp, by simp, ?_, ?_, ?_, ?_⟩
    · simp [Heap.nodeD_alloc_new]
    · intro m hm
      simp [Heap.nodeD_alloc_old _ _ _ hm]
    · intro m hm
      rcases Nat.lt_or_ge m h.nodes.length with hlt | hge
      · simp [Heap.nodeD_alloc_old _ _ _ hlt]
      · have hge' : h.nodes.length + 1 ≤ m := by omega
        rw [Heap.nodeD_setHdr, Heap.nodeD_setHdr]
        rw [Heap.nodeD_out _ _ (by simpa using hge'), Heap.nodeD_out _ _ hge]
    · refine ⟨by simpa using hlid, ?_, ?_, ?_, ?_, ?_⟩
      · rw [Heap.hdr_setHdr_self _ _ _ (by simpa using hlid)]
        simp
      · rw [Heap.hdr_setHdr_self _ _ _ (by simpa using hlid)]
        simp
      · rw [Heap.hdr_setHdr_self _ _ _ (by simpa using hlid)]
        simp [hlen0]
      · refine ⟨by simp, ?_, ?_, ?_, trivial⟩ <;>
          simp [Heap.nodeD_alloc_new]
      · simp
  | cons F rest =>
    have hfirst' : (h.hdr lid).firstNode = some F := by simpa using hfirst
    have hlenne : ¬((h.hdr lid).length = 0) := by
      rw [hlen]
      simp only [List.length_cons]
      omega
    obtain ⟨hF1, hF2, hF3, hF4, hF5⟩ := hchain
    have hFrest : F ∉ rest := by
      have := hnodup
      rw [List.nodup_cons] at this
      exact this.1
    set N := h.nodes.length with hN
    have happ : prepend h lid v =
        (((h.alloc ⟨some lid, v, none, some F⟩).1.setPrev F (some N)).setHdr lid
          { h.hdr lid with
            firstNode := some N
            length := (h.hdr lid).length + 1 },
         N) := by
      simp only [prepend, Heap.alloc_snd]
      rw [if_neg hlenne]
      simp [hfirst']
    rw [happ]
    have hnodeN : ((h.alloc ⟨some lid, v, none, some F⟩).1.setPrev F (some N)).nodeD N =
        ⟨some lid, v, none, some F⟩ := by
      rw [Heap.nodeD_setPrev_ne _ _ _ _ (Nat.ne_of_lt hF1), Heap.nodeD_alloc_new]
    have hnodeF : ((h.alloc ⟨some lid, v, none, some F⟩).1.setPrev F (some N)).nodeD F =
        { h.nodeD F with prev := some N } := by
      rw [Heap.nodeD_setPrev_self _ _ _ (by simp; exact Nat.lt_succ_of_lt hF1),
        Heap.nodeD_alloc_old _ _ _ hF1]
    have hnodeOther : ∀ m, m ≠ F → m < N →
        ((h.alloc ⟨some lid, v, none, some F⟩).1.setPrev F (some N)).nodeD m = h.nodeD m := by
      intro m hm hlt
      rw [Heap.nodeD_setPrev_ne _ _ _ _ (Ne.symm hm), Heap.nodeD_alloc_old _ _ _ hlt]
    refine ⟨rfl, by simp, by simp, ?_, ?_, ?_, ?_⟩
    · simpa using congrArg Node.value hnodeN
    · intro m hm
      rcases eq_or_ne m F with rfl | hne
      · rw [Heap.nodeD_setHdr, hnodeF]
      · rw [Heap.nodeD_setHdr, hnodeOther m hne hm]
    · intro m hm
      rcases Nat.lt_or_ge m N with hlt | hge
      · rcases eq_or_ne m F with rfl | hne
        · rw [Heap.nodeD_setHdr, hnodeF]
        · rw [Heap.nodeD_setHdr, hnodeOther m hne hlt]
      · have hge' : N + 1 ≤ m := by omega
        rw [Heap.nodeD_setHdr, Heap.nodeD_out _ _ (by simpa using hge'), Heap.nodeD_out _ _ hge]
    · refine ⟨by simpa using hlid, ?_, ?_, ?_, ?_, ?_⟩
      · rw [Heap.hdr_setHdr_self _ _ _ (by simpa using hlid)]
        simp
      · rw [Heap.hdr_setHdr_self _ _ _ (by simpa using hlid)]
        show (h.hdr lid).lastNode = _
        rw [hlast, List.getLast?_cons_cons]
      · rw [Heap.hdr_setHdr_self _ _ _ (by simpa using hlid), hlen]
        show ((F :: rest).length : Int) + 1 = ((N :: F :: rest).length : Int)
        simp only [List.length_cons]
        push_cast
        omega
      · refine ⟨by simp, ?_, ?_, ?_, ?_⟩
        · rw [Heap.nodeD_setHdr, hnodeN]
        · rw [Heap.nodeD_setHdr, hnodeN]
        · rw [Heap.nodeD_setHdr, hnodeN]
          simp
        · refine ⟨by simp [Nat.lt_succ_of_lt hF1], ?_, ?_, ?_, ?_⟩
          · rw [Heap.nodeD_setHdr, hnodeF]
            simpa using hF2
          · rw [Heap.nodeD_setHdr, hnodeF]
          · rw [Heap.nodeD_setHdr, hnodeF]
            simpa using hF4
          · refine chainSeg_congr (by simp) ?_ hF5
            intro m hm
            rw [Heap.nodeD_setHdr]
            exact hnodeOther m (fun he => hFrest (he ▸ hm))
              (chainSeg_mem hF5 hm).1
      · rw [List.nodup_cons]
        refine ⟨?_, hnodup⟩
        intro hmem
        have := chainSeg_mem (show ChainSeg h lid none (F :: rest) none from
          ⟨hF1, hF2, hF3, hF4, hF5⟩) hmem
        omega

/-! ### `removeFinish` lemmas -/

theorem removeFinish_snd (h : Heap α) (lid nid : Nat) : (removeFinish h lid nid).2 = true := rfl

@[simp] theorem removeFinish_nodes_length (h : Heap α) (lid nid : Nat) :
    (removeFinish h lid nid).1.nodes.length = h.nodes.length := by
  simp [removeFinish]

@[simp] theorem removeFinish_lists_length (h : Heap α) (lid nid : Nat) :
    (removeFinish h lid nid).1.lists.length = h.lists.length := by
  simp [removeFinish]

theorem removeFinish_hdr (h : Heap α) (lid nid : Nat) (hlid : lid < h.lists.length) :
    (removeFinish h lid nid).1.hdr lid =
      { h.hdr lid with length := (h.hdr lid).length - 1 } := by
  simp only [removeFinish, Heap.hdr_setOwner, Heap.hdr_setNext, Heap.hdr_setPrev]
  rw [Heap.hdr_setHdr_self _ _ _ (by simpa using hlid)]

theorem removeFinish_nodeD_ne (h : Heap α) (lid nid m : Nat) (hne : m ≠ nid) :
    (removeFinish h lid nid).1.nodeD m = h.nodeD m := by
  simp only [removeFinish, Heap.nodeD_setHdr]
  rw [Heap.nodeD_setOwner_ne _ _ _ _ (Ne.symm hne), Heap.nodeD_setNext_ne _ _ _ _ (Ne.symm hne),
    Heap.nodeD_setPrev_ne _ _ _ _ (Ne.symm hne)]

theorem removeFinish_nodeD_self (h : Heap α) (lid nid : Nat) (hlt : nid < h.nodes.length) :
    (removeFinish h lid nid).1.nodeD nid =
      { h.nodeD nid with prev := none, next := none, owner := none } := by
  simp only [removeFinish, Heap.nodeD_setHdr]
  rw [Heap.nodeD_setOwner_self _ _ _ (by simpa using hlt),
    Heap.nodeD_setNext_self _ _ _ (by simpa using hlt),
    Heap.nodeD_setPrev_self _ _ _ hlt]

/-- The frame conclusions shared by every successful `remove` branch. -/
theorem remove_finish_bundle {h hPre : Heap α} {lid nid : Nat}
    (hrem : remove h lid nid = removeFinish hPre lid nid)
    (hlenp : hPre.nodes.length = h.nodes.length)
    (hlistsp : hPre.lists.length = h.lists.length)
    (hvalp : ∀ m, (hPre.nodeD m).value = (h.nodeD m).value)
    (hownp : ∀ m, (hPre.nodeD m).owner = (h.nodeD m).owner)
    (hnid : nid < h.nodes.length) :
    (remove h lid nid).2 = true ∧
    (remove h lid nid).1.nodes.length = h.nodes.length ∧
    (remove h lid nid).1.lists.length = h.lists.length ∧
    (∀ m, ((remove h lid nid).1.nodeD m).value = (h.nodeD m).value) ∧
    (∀ m, m ≠ nid → ((remove h lid nid).1.nodeD m).owner = (h.nodeD m).owner) ∧
    ((remove h lid nid).1.nodeD nid).owner = none := by
  rw [hrem]
  refine ⟨rfl, by simp [hlenp], by simp [hlistsp], ?_, ?_, ?_⟩
  · intro m
    rcases eq_or_ne m nid with rfl | hne
    · rw [removeFinish_nodeD_self _ _ _ (by omega)]
      exact hvalp m
    · rw [removeFinish_nodeD_ne _ _ _ _ hne]
      exact hvalp m
  · intro m hne
    rw [removeFinish_nodeD_ne _ _ _ _ hne]
    exact hownp m
  · rw [removeFinish_nodeD_self _ _ _ (by omega)]

/-- Effect of a successful `remove` on the spine: the node disappears;
all other nodes keep value and owner, the removed node's owner is cleared. -/
theorem remove_rep {h : Heap α} {lid : Nat} {xs ys : List Nat} {nid : Nat}
    (hrep : ListRep h lid (xs ++ nid :: ys)) :
    (remove h lid nid).2 = true ∧
    (remove h lid nid).1.nodes.length = h.nodes.length ∧
    (remove h lid nid).1.lists.length = h.lists.length ∧
    (∀ m, ((remove h lid nid).1.nodeD m).value = (h.nodeD m).value) ∧
    (∀ m, m ≠ nid → ((remove h lid nid).1.nodeD m).owner = (h.nodeD m).owner) ∧
    ((remove h lid nid).1.nodeD nid).owner = none ∧
    ListRep (remove h lid nid).1 lid (xs ++ ys) := by
  obtain ⟨hlid, hfirst, hlast, hlen, hchain, hnodup⟩ := hrep
  have hmid := List.nodup_middle.1 hnodup
  have hnin : nid ∉ xs ++ ys := (List.nodup_cons.1 hmid).1
  have hrest_nd : (xs ++ ys).Nodup := (List.nodup_cons.1 hmid).2
  have hnid_xs : nid ∉ xs := fun hm => hnin (List.mem_append_left _ hm)
  have hnid_ys : nid ∉ ys := fun hm => hnin (List.mem_append_right _ hm)
  obtain ⟨hxs, hn1, hn2, hn3, hn4, hn5⟩ := (chainSeg_append xs (nid :: ys)).1 hchain
  cases ys with
  | nil =>
    have htest : some nid = (h.hdr lid).lastNode := by
      rw [hlast, List.getLast?_concat]
    rcases List.eq_nil_or_concat' xs with rfl | ⟨zs, P, rfl⟩
    · -- removing the sole node
      have hprev : (h.nodeD nid).prev = none := by simpa using hn3
      have hrem : remove h lid nid =
          removeFinish (h.setHdr lid
            { h.hdr lid with lastNode := none, firstNode := none }) lid nid := by
        simp only [remove]
        rw [if_pos htest, hprev]
      have hb := remove_finish_bundle hrem (by simp) (by simp)
        (fun m => by simp) (fun m => by simp) hn1
      refine ⟨hb.1, hb.2.1, hb.2.2.1, hb.2.2.2.1, hb.2.2.2.2.1, hb.2.2.2.2.2, ?_⟩
      rw [hrem]
      have hlen1 : (h.hdr lid).length = 1 := by simpa using hlen
      refine ⟨by simpa using hlid, ?_, ?_, ?_, by simp, by simp⟩
      · rw [removeFinish_hdr _ _ _ (by simpa using hlid),
          Heap.hdr_setHdr_self _ _ _ hlid]
        simp
      · rw [removeFinish_hdr _ _ _ (by simpa using hlid),
          Heap.hdr_setHdr_self _ _ _ hlid]
        simp
      · rw [removeFinish_hdr _ _ _ (by simpa using hlid),
          Heap.hdr_setHdr_self _ _ _ hlid]
        simp [hlen1]
    · -- removing the tail, a predecessor exists
      have hPzs : P ∉ zs := by
        have hx : (zs ++ [P]).Nodup := by simpa using hrest_nd
        rw [List.nodup_append] at hx
        exact fun hm => hx.2.2 hm (List.mem_singleton_self P)
      have hPlt : P < h.nodes.length := (chainSeg_mem hxs (by simp)).1
      have hPnid : P ≠ nid := fun he => hnid_xs (he ▸ (by simp : P ∈ zs ++ [P]))
      have hprev : (h.nodeD nid).prev = some P := by
        rw [hn3]
        simp
      have hrem : remove h lid nid =
          removeFinish ((h.setHdr lid
            { h.hdr lid with lastNode := some P }).setNext P none) lid nid := by
        simp only [remove]
        rw [if_pos htest, hprev]
      have hb := remove_finish_bundle hrem (by simp) (by simp)
        (fun m => by simp) (fun m => by simp) hn1
      refine ⟨hb.1, hb.2.1, hb.2.2.1, hb.2.2.2.1, hb.2.2.2.2.1, hb.2.2.2.2.2, ?_⟩
      rw [hrem]
      set hPre := (h.setHdr lid { h.hdr lid with lastNode := some P }).setNext P none with hPreDef
      have hPreLid : lid < hPre.lists.length := by
        rw [hPreDef]
        simpa using hlid
      have hPreLen : hPre.nodes.length = h.nodes.length := by
        rw [hPreDef]
        simp
      have hPreHdr : hPre.hdr lid = { h.hdr lid with lastNode := some P } := by
        rw [hPreDef, Heap.hdr_setNext, Heap.hdr_setHdr_self _ _ _ hlid]
      have hPreP : hPre.nodeD P = { h.nodeD P with next := none } := by
        rw [hPreDef]
        rw [Heap.nodeD_setNext_self _ _ _ (by simpa using hPlt), Heap.nodeD_setHdr]
      have hPreOther : ∀ m, m ≠ P → hPre.nodeD m = h.nodeD m := by
        intro m hm
        rw [hPreDef, Heap.nodeD_setNext_ne _ _ _ _ (Ne.symm hm), Heap.nodeD_setHdr]
      have hfHdr : (removeFinish hPre lid nid).1.hdr lid =
          { h.hdr lid with lastNode := some P, length := (h.hdr lid).length - 1 } := by
        rw [removeFinish_hdr _ _ _ hPreLid, hPreHdr]
      have hfP : (removeFinish hPre lid nid).1.nodeD P = { h.nodeD P with next := none } := by
        rw [removeFinish_nodeD_ne _ _ _ _ hPnid, hPreP]
      have hfOther : ∀ m, m ≠ P → m ≠ nid →
          (removeFinish hPre lid nid).1.nodeD m = h.nodeD m := by
        intro m hm hm2
        rw [removeFinish_nodeD_ne _ _ _ _ hm2, hPreOther m hm]
      have hfLen : h.nodes.length ≤ (removeFinish hPre lid nid).1.nodes.length := by
        simp [hPreLen]
      obtain ⟨hzs, hP1, hP2, hP3, hP4, -⟩ := (chainSeg_append zs [P]).1 hxs
      refine ⟨by simpa using hPreLid, ?_, ?_, ?_, ?_, by simpa using hrest_nd⟩
      · rw [hfHdr]
        show (h.hdr lid).firstNode = _
        rw [hfirst, List.head?_append_of_ne_nil _ (by simp), List.append_nil]
      · rw [hfHdr]
        show some P = _
        rw [List.append_nil, List.getLast?_concat]
      · rw [hfHdr]
        show (h.hdr lid).length - 1 = _
        rw [hlen]
        simp only [List.append_nil, List.length_append, List.length_cons, List.length_nil]
        push_cast
        omega
      · rw [List.append_nil]
        refine (chainSeg_append zs [P]).2 ⟨?_, ?_⟩
        · refine chainSeg_congr hfLen ?_ hzs
          intro m hm
          exact hfOther m (fun he => hPzs (he ▸ hm))
            (fun he => hnid_xs (he ▸ List.mem_append_left _ hm))
        · refine ⟨by rw [removeFinish_nodes_length, hPreLen]; exact hPlt, ?_, ?_, ?_, trivial⟩ <;>
            rw [hfP]
          · exact hP2
          · exact hP3
          · rfl
  | cons Q rest =>
    have hlastT : (h.hdr lid).lastNode = (Q :: rest).getLast? := by
      rw [hlast, List.getLast?_append_of_ne_nil _ (by simp), List.getLast?_cons_cons]
    have htestL : ¬(some nid = (h.hdr lid).lastNode) := by
      rw [hlastT, List.getLast?_eq_getLast _ (by simp)]
      intro hEq
      exact hnid_ys ((Option.some.inj hEq) ▸ List.getLast_mem (by simp))
    have hQlt : Q < h.nodes.length := (chainSeg_mem hn5 (by simp)).1
    have hQnid : Q ≠ nid := fun he => hnid_ys (he ▸ (by simp : Q ∈ Q :: rest))
    have hnext : (h.nodeD nid).next = some Q := by simpa using hn4
    have hysnd : (Q :: rest).Nodup := by
      rw [List.nodup_append] at hrest_nd
      exact hrest_nd.2.1
    have hQrest : Q ∉ rest := (List.nodup_cons.1 hysnd).1
    have hdisj : ∀ a ∈ xs, a ∉ Q :: rest := by
      intro a ha hb
      rw [List.nodup_append] at hrest_nd
      exact hrest_nd.2.2 ha hb
    obtain ⟨hq1, hq2, hq3, hq4, hq5⟩ := hn5
    rcases List.eq_nil_or_concat' xs with rfl | ⟨zs, P, rfl⟩
    · -- removing the head, a successor exists
      have htestF : some nid = (h.hdr lid).firstNode := by rw [hfirst]; rfl
      have hrem : remove h lid nid =
          removeFinish ((h.setHdr lid
            { h.hdr lid with firstNode := some Q }).setPrev Q none) lid nid := by
        simp only [remove]
        rw [if_neg htestL, if_pos htestF, hnext]
      have hb := remove_finish_bundle hrem (by simp) (by simp)
        (fun m => by simp) (fun m => by simp) hn1
      refine ⟨hb.1, hb.2.1, hb.2.2.1, hb.2.2.2.1, hb.2.2.2.2.1, hb.2.2.2.2.2, ?_⟩
      rw [hrem]
      set hPre := (h.setHdr lid { h.hdr lid with firstNode := some Q }).setPrev Q none with hPreDef
      have hPreLid : lid < hPre.lists.length := by
        rw [hPreDef]
        simpa using hlid
      have hPreLen : hPre.nodes.length = h.nodes.length := by
        rw [hPreDef]
        simp
      have hPreHdr : hPre.hdr lid = { h.hdr lid with firstNode := some Q } := by
        rw [hPreDef, Heap.hdr_setPrev, Heap.hdr_setHdr_self _ _ _ hlid]
      have hPreQ : hPre.nodeD Q = { h.nodeD Q with prev := none } := by
        rw [hPreDef]
        rw [Heap.nodeD_setPrev_self _ _ _ (by simpa using hQlt), Heap.nodeD_setHdr]
      have hPreOther : ∀ m, m ≠ Q → hPre.nodeD m = h.nodeD m := by
        intro m hm
        rw [hPreDef, Heap.nodeD_setPrev_ne _ _ _ _ (Ne.symm hm), Heap.nodeD_setHdr]
      have hfQ : (removeFinish hPre lid nid).1.nodeD Q = { h.nodeD Q with prev := none } := by
        rw [removeFinish_nodeD_ne _ _ _ _ hQnid, hPreQ]
      have hfOther : ∀ m, m ≠ Q → m ≠ nid →
          (removeFinish hPre lid nid).1.nodeD m = h.nodeD m := by
        intro m hm hm2
        rw [removeFinish_nodeD_ne _ _ _ _ hm2, hPreOther m hm]
      have hfHdr : (removeFinish hPre lid nid).1.hdr lid =
          { h.hdr lid with firstNode := some Q, length := (h.hdr lid).length - 1 } := by
        rw [removeFinish_hdr _ _ _ hPreLid, hPreHdr]
      have hfLen : h.nodes.length ≤ (removeFinish hPre lid nid).1.nodes.length := by
        simp [hPreLen]
      refine ⟨by simpa using hPreLid, ?_, ?_, ?_, ?_, by simpa using hysnd⟩
      · rw [hfHdr]
        simp
      · rw [hfHdr]
        show (h.hdr lid).lastNode = _
        rw [hlastT, List.nil_append]
      · rw [hfHdr]
        show (h.hdr lid).length - 1 = _
        rw [hlen]
        simp only [List.nil_append, List.length_cons]
        push_cast
        omega
      · show ChainSeg _ lid none ([] ++ Q :: rest) none
        rw [List.nil_append]
        refine ⟨by rw [removeFinish_nodes_length, hPreLen]; exact hQlt, ?_, ?_, ?_, ?_⟩
        · rw [hfQ]
          exact hq2
        · rw [hfQ]
        · rw [hfQ]
          exact hq4
        · refine chainSeg_congr hfLen ?_ hq5
          intro m hm
          exact hfOther m (fun he => hQrest (he ▸ hm))
            (fun he => hnid_ys (he ▸ List.mem_cons_of_mem _ hm))
    · -- removing a middle node
      have hfirstH : (h.hdr lid).firstNode = (zs ++ [P]).head? := by
        rw [hfirst, List.head?_append_of_ne_nil _ (by simp)]
      have htestF : ¬(some nid = (h.hdr lid).firstNode) := by
        rw [hfirstH, List.head?_eq_head (by simp)]
        intro hEq
        exact hnid_xs ((Option.some.inj hEq) ▸ List.head_mem (by simp))
      have hPzs : P ∉ zs := by
        have hx : (zs ++ [P]).Nodup := by
          rw [List.nodup_append] at hrest_nd
          exact hrest_nd.1
        rw [List.nodup_append] at hx
        exact fun hm => hx.2.2 hm (List.mem_singleton_self P)
      have hPlt : P < h.nodes.length := (chainSeg_mem hxs (by simp)).1
      have hPnid : P ≠ nid := fun he => hnid_xs (he ▸ (by simp : P ∈ zs ++ [P]))
      have hPQ : P ≠ Q := fun he => hdisj P (by simp) (he ▸ (by simp : Q ∈ Q :: rest))
      have hprev : (h.nodeD nid).prev = some P := by
        rw [hn3]
        simp
      have hown : ¬((h.nodeD nid).owner ≠ some lid) := by simp [hn2]
      have hrem : remove h lid nid =
          removeFinish ((h.setNext P (some Q)).setPrev Q (some P)) lid nid := by
        simp only [remove]
        rw [if_neg htestL, if_neg htestF, if_neg hown, hprev, hnext]
        simp only [Option.getD_some]
      have hb := remove_finish_bundle hrem (by simp) (by simp)
        (fun m => by simp) (fun m => by simp) hn1
      refine ⟨hb.1, hb.2.1, hb.2.2.1, hb.2.2.2.1, hb.2.2.2.2.1, hb.2.2.2.2.2, ?_⟩
      rw [hrem]
      set hPre := (h.setNext P (some Q)).setPrev Q (some P) with hPreDef
      have hPreLid : lid < hPre.lists.length := by
        rw [hPreDef]
        simpa using hlid
      have hPreLen : hPre.nodes.length = h.nodes.length := by
        rw [hPreDef]
        simp
      have hPreP : hPre.nodeD P = { h.nodeD P with next := some Q } := by
        rw [hPreDef]
        rw [Heap.nodeD_setPrev_ne _ _ _ _ (Ne.symm hPQ), Heap.nodeD_setNext_self _ _ _ hPlt]
      have hPreQ : hPre.nodeD Q = { h.nodeD Q with prev := some P } := by
        rw [hPreDef]
        rw [Heap.nodeD_setPrev_self _ _ _ (by simpa using hQlt),
          Heap.nodeD_setNext_ne _ _ _ _ hPQ]
      have hPreOther : ∀ m, m ≠ P → m ≠ Q → hPre.nodeD m = h.nodeD m := by
        intro m hm hm2
        rw [hPreDef, Heap.nodeD_setPrev_ne _ _ _ _ (Ne.symm hm2),
          Heap.nodeD_setNext_ne _ _ _ _ (Ne.symm hm)]
      have hfP : (removeFinish hPre lid nid).1.nodeD P = { h.nodeD P with next := some Q } := by
        rw [removeFinish_nodeD_ne _ _ _ _ hPnid, hPreP]
      have hfQ : (removeFinish hPre lid nid).1.nodeD Q = { h.nodeD Q with prev := some P } := by
        rw [removeFinish_nodeD_ne _ _ _ _ hQnid, hPreQ]
      have hfOther : ∀ m, m ≠ P → m ≠ Q → m ≠ nid →
          (removeFinish hPre lid nid).1.nodeD m = h.nodeD m := by
        intro m hm hm2 hm3
        rw [removeFinish_nodeD_ne _ _ _ _ hm3, hPreOther m hm hm2]
      have hfHdr : (removeFinish hPre lid nid).1.hdr lid =
          { h.hdr lid with length := (h.hdr lid).length - 1 } := by
        rw [removeFinish_hdr _ _ _ hPreLid, hPreDef]
        rw [Heap.hdr_setPrev, Heap.hdr_setNext]
      have hfLen : h.nodes.length ≤ (removeFinish hPre lid nid).1.nodes.length := by
        simp [hPreLen]
      obtain ⟨hzs, hP1, hP2, hP3, hP4, -⟩ := (chainSeg_append zs [P]).1 hxs
      refine ⟨by simpa using hPreLid, ?_, ?_, ?_, ?_, by simpa using hrest_nd⟩
      · have hh : ((zs ++ [P]) ++ Q :: rest).head? = (zs ++ [P]).head? :=
          List.head?_append_of_ne_nil _ (by simp)
        rw [hfHdr]
        show (h.hdr lid).firstNode = _
        rw [hh, hfirstH]
      · have hg : ((zs ++ [P]) ++ Q :: rest).getLast? = (Q :: rest).getLast? :=
          List.getLast?_append_of_ne_nil _ (by simp)
        rw [hfHdr]
        show (h.hdr lid).lastNode = _
        rw [hg, hlastT]
      · rw [hfHdr]
        show (h.hdr lid).length - 1 = _
        rw [hlen]
        simp only [List.length_append, List.length_cons]
        push_cast
        omega
      · refine (chainSeg_append (zs ++ [P]) (Q :: rest)).2 ⟨?_, ?_⟩
        · refine (chainSeg_append zs [P]).2 ⟨?_, ?_⟩
          · refine chainSeg_congr hfLen ?_ hzs
            intro m hm
            exact hfOther m (fun he => hPzs (he ▸ hm))
              (fun he => hdisj m (List.mem_append_left _ hm) (he ▸ (by simp : Q ∈ Q :: rest)))
              (fun he => hnid_xs (he ▸ List.mem_append_left _ hm))
          · refine ⟨by rw [removeFinish_nodes_length, hPreLen]; exact hPlt, ?_, ?_, ?_,
              trivial⟩ <;> rw [hfP]
            · exact hP2
            · exact hP3
            · rfl
        · refine ⟨by rw [removeFinish_nodes_length, hPreLen]; exact hQlt, ?_, ?_, ?_, ?_⟩
          · rw [hfQ]
            exact hq2
          · rw [hfQ]
            simp
          · rw [hfQ]
            exact hq4
          · refine chainSeg_congr hfLen ?_ hq5
            intro m hm
            exact hfOther m
              (fun he => hdisj P (by simp) (he ▸ List.mem_cons_of_mem _ hm))
              (fun he => hQrest (he ▸ hm))
              (fun he => hnid_ys (he ▸ List.mem_cons_of_mem _ hm))

/-- `remove` on a node the list does not own is a silent no-op returning
`false` (the source reaches the wrong-list guard in the middle branch). -/
theorem remove_foreign {h : Heap α} {lid : Nat} {ns : List Nat} {nid : Nat}
    (hrep : ListRep h lid ns) (ho : (h.nodeD nid).owner ≠ some lid) :
    remove h lid nid = (h, false) := by
  have hnmem : nid ∉ ns := chainSeg_not_mem hrep.chain ho
  have hlastne : ¬(some nid = (h.hdr lid).lastNode) := by
    rw [hrep.last_eq]
    intro hEq
    exact hnmem (List.mem_of_mem_getLast? hEq.symm)
  have hfirstne : ¬(some nid = (h.hdr lid).firstNode) := by
    rw [hrep.first_eq]
    intro hEq
    exact hnmem (List.mem_of_mem_head? hEq.symm)
  simp only [remove]
  rw [if_neg hlastne, if_neg hfirstne, if_pos ho]

/-- Effect of `insertAfterNode` on the spine: the fresh node id lands
immediately after `nid`. -/
theorem insertAfterNode_rep {h : Heap α} {lid : Nat} {xs ys : List Nat} {nid : Nat}
    (hrep : ListRep h lid (xs ++ nid :: ys)) (v : α) :
    (insertAfterNode h lid nid v).2 = some h.nodes.length ∧
    (insertAfterNode h lid nid v).1.nodes.length = h.nodes.length + 1 ∧
    (insertAfterNode h lid nid v).1.lists.length = h.lists.length ∧
    ((insertAfterNode h lid nid v).1.nodeD h.nodes.length).value = v ∧
    (∀ m, m < h.nodes.length →
      ((insertAfterNode h lid nid v).1.nodeD m).value = (h.nodeD m).value) ∧
    (∀ m, m ≠ h.nodes.length →
      ((insertAfterNode h lid nid v).1.nodeD m).owner = (h.nodeD m).owner) ∧
    ListRep (insertAfterNode h lid nid v).1 lid (xs ++ nid :: h.nodes.length :: ys) := by
  have hfresh : h.nodes.length ∉ xs ++ nid :: ys := listRep_fresh_not_mem hrep
  obtain ⟨hlid, hfirst, hlast, hlen, hchain, hnodup⟩ := hrep
  have hmid := List.nodup_middle.1 hnodup
  have hnin : nid ∉ xs ++ ys := (List.nodup_cons.1 hmid).1
  have hrest_nd : (xs ++ ys).Nodup := (List.nodup_cons.1 hmid).2
  have hnid_xs : nid ∉ xs := fun hm => hnin (List.mem_append_left _ hm)
  have hnid_ys : nid ∉ ys := fun hm => hnin (List.mem_append_right _ hm)
  obtain ⟨hxs, hn1, hn2, hn3, hn4, hn5⟩ := (chainSeg_append xs (nid :: ys)).1 hchain
  have hownne : ¬((h.nodeD nid).owner ≠ some lid) := by simp [hn2]
  cases ys with
  | nil =>
    have hlastEq : (h.hdr lid).lastNode = some nid := by
      rw [hlast, List.getLast?_concat]
    have hins : insertAfterNode h lid nid v =
        ((append h lid v).1, some (append h lid v).2) := by
      simp only [insertAfterNode]
      rw [if_neg hownne, if_pos hlastEq]
    obtain ⟨a1, a2, a3, a4, a5, a6, a7⟩ :=
      append_rep ⟨hlid, hfirst, hlast, hlen, hchain, hnodup⟩ v
    rw [hins]
    refine ⟨by rw [a1], a2, a3, a4, a5, a6, ?_⟩
    have hsp : (xs ++ [nid]) ++ [h.nodes.length] = xs ++ nid :: h.nodes.length :: [] := by
      simp
    rw [← hsp]
    exact a7
  | cons Q rest =>
    have hQlt : Q < h.nodes.length := (chainSeg_mem hn5 (by simp)).1
    obtain ⟨hq1, hq2, hq3, hq4, hq5⟩ := hn5
    have hQnid : Q ≠ nid := fun he => hnid_ys (he ▸ (by simp : Q ∈ Q :: rest))
    have hysnd : (Q :: rest).Nodup := by
      rw [List.nodup_append] at hrest_nd
      exact hrest_nd.2.1
    have hQrest : Q ∉ rest := (List.nodup_cons.1 hysnd).1
    have hdisj : ∀ a ∈ xs, a ∉ Q :: rest := by
      intro a ha hb
      rw [List.nodup_append] at hrest_nd
      exact hrest_nd.2.2 ha hb
    have hlastT : (h.hdr lid).lastNode = (Q :: rest).getLast? := by
      rw [hlast, List.getLast?_append_of_ne_nil _ (by simp), List.getLast?_cons_cons]
    have hlastne : ¬((h.hdr lid).lastNode = some nid) := by
      rw [hlastT, List.getLast?_eq_getLast _ (by simp)]
      intro hEq
      exact hnid_ys ((Option.some.inj hEq) ▸ List.getLast_mem (by simp))
    have hnext : (h.nodeD nid).next = some Q := by simpa using hn4
    have hins : insertAfterNode h lid nid v =
        ((((h.alloc ⟨some lid, v, some nid, some Q⟩).1.setPrev Q
              (some h.nodes.length)).setNext nid (some h.nodes.length)).setHdr lid
          { h.hdr lid with length := (h.hdr lid).length + 1 },
         some h.nodes.length) := by
      simp only [insertAfterNode, Heap.alloc_snd]
      rw [if_neg hownne, if_neg hlastne, hnext]
      simp only [Option.getD_some]
      rw [Heap.hdr_setNext, Heap.hdr_setPrev, Heap.hdr_alloc]
    rw [hins]
    set N := h.nodes.length with hNdef
    have hQN : Q ≠ N := Nat.ne_of_lt hQlt
    have hnidN : nid ≠ N := Nat.ne_of_lt hn1
    set hMid := ((h.alloc ⟨some lid, v, some nid, some Q⟩).1.setPrev Q (some N)).setNext nid
      (some N) with hMidDef
    have hMlen : hMid.nodes.length = N + 1 := by
      rw [hMidDef]
      simp
    have hMnodeN : hMid.nodeD N = ⟨some lid, v, some nid, some Q⟩ := by
      rw [hMidDef, Heap.nodeD_setNext_ne _ _ _ _ hnidN, Heap.nodeD_setPrev_ne _ _ _ _ hQN,
        hNdef, Heap.nodeD_alloc_new]
    have hMnodeQ : hMid.nodeD Q = { h.nodeD Q with prev := some N } := by
      rw [hMidDef, Heap.nodeD_setNext_ne _ _ _ _ (Ne.symm hQnid),
        Heap.nodeD_setPrev_self _ _ _ (by simp [hNdef]; omega), hNdef,
        Heap.nodeD_alloc_old _ _ _ hQlt]
    have hMnodeNid : hMid.nodeD nid = { h.nodeD nid with next := some N } := by
      rw [hMidDef, Heap.nodeD_setNext_self _ _ _ (by simp [hNdef]; omega),
        Heap.nodeD_setPrev_ne _ _ _ _ hQnid, hNdef, Heap.nodeD_alloc_old _ _ _ hn1]
    have hMother : ∀ m, m ≠ N → m ≠ Q → m ≠ nid → m < N → hMid.nodeD m = h.nodeD m := by
      intro m hm1 hm2 hm3 hm4
      rw [hMidDef, Heap.nodeD_setNext_ne _ _ _ _ (Ne.symm hm3),
        Heap.nodeD_setPrev_ne _ _ _ _ (Ne.symm hm2), Heap.nodeD_alloc_old _ _ _ hm4]
    have hfHdr : (hMid.setHdr lid
        { h.hdr lid with length := (h.hdr lid).length + 1 }).hdr lid =
        { h.hdr lid with length := (h.hdr lid).length + 1 } := by
      apply Heap.hdr_setHdr_self
      rw [hMidDef]
      simpa using hlid
    refine ⟨rfl, by simpa using hMlen, by rw [Heap.lists_length_setHdr, hMidDef]; simp, ?_,
      ?_, ?_, ?_⟩
    · rw [Heap.nodeD_setHdr, hMnodeN]
    · intro m hm
      rcases eq_or_ne m Q with rfl | hmQ
      · rw [Heap.nodeD_setHdr, hMnodeQ]
      rcases eq_or_ne m nid with rfl | hmnid
      · rw [Heap.nodeD_setHdr, hMnodeNid]
      · rw [Heap.nodeD_setHdr, hMother m (Nat.ne_of_lt hm) hmQ hmnid hm]
    · intro m hm
      rcases Nat.lt_or_ge m N with hlt | hge
      · rcases eq_or_ne m Q with rfl | hmQ
        · rw [Heap.nodeD_setHdr, hMnodeQ]
        rcases eq_or_ne m nid with rfl | hmnid
        · rw [Heap.nodeD_setHdr, hMnodeNid]
        · rw [Heap.nodeD_setHdr, hMother m hm hmQ hmnid hlt]
      · have hge' : hMid.nodes.length ≤ m := by omega
        rw [Heap.nodeD_setHdr, Heap.nodeD_out _ _ hge', Heap.nodeD_out _ _ (by omega)]
    · refine ⟨?_, ?_, ?_, ?_, ?_, ?_⟩
      · rw [Heap.lists_length_setHdr, hMidDef]
        simpa using hlid
      · rw [hfHdr]
        show (h.hdr lid).firstNode = _
        rw [hfirst]
        cases xs <;> simp
      · rw [hfHdr]
        show (h.hdr lid).lastNode = _
        have hg : (xs ++ nid :: N :: Q :: rest).getLast? = (Q :: rest).getLast? := by
          rw [List.getLast?_append_of_ne_nil _ (by simp), List.getLast?_cons_cons,
            List.getLast?_cons_cons]
        rw [hg, hlastT]
      · rw [hfHdr]
        show (h.hdr lid).length + 1 = _
        rw [hlen]
        simp only [List.length_append, List.length_cons]
        push_cast
        omega
      · refine (chainSeg_append xs (nid :: N :: Q :: rest)).2 ⟨?_, ?_⟩
        · refine chainSeg_congr (by simp [hMlen]) ?_ hxs
          intro m hm
          rw [Heap.nodeD_setHdr]
          exact hMother m (fun he => hfresh (he ▸ List.mem_append_left _ hm))
            (fun he => hdisj m hm (he ▸ (by simp : Q ∈ Q :: rest)))
            (fun he => hnid_xs (he ▸ hm))
            (chainSeg_mem hxs hm).1
        · refine ⟨by simp [hMlen]; omega, ?_, ?_, ?_, ?_⟩
          · rw [Heap.nodeD_setHdr, hMnodeNid]
            exact hn2
          · rw [Heap.nodeD_setHdr, hMnodeNid]
            exact hn3
          · rw [Heap.nodeD_setHdr, hMnodeNid]
            rfl
          · refine ⟨by simp [hMlen], ?_, ?_, ?_, ?_⟩
            · rw [Heap.nodeD_setHdr, hMnodeN]
            · rw [Heap.nodeD_setHdr, hMnodeN]
            · rw [Heap.nodeD_setHdr, hMnodeN]
              rfl
            · refine ⟨by simp [hMlen]; omega, ?_, ?_, ?_, ?_⟩
              · rw [Heap.nodeD_setHdr, hMnodeQ]
                exact hq2
              · rw [Heap.nodeD_setHdr, hMnodeQ]
              · rw [Heap.nodeD_setHdr, hMnodeQ]
                exact hq4
              · refine chainSeg_congr (by simp [hMlen]) ?_ hq5
                intro m hm
                rw [Heap.nodeD_setHdr]
                exact hMother m
                  (fun he => hfresh (he ▸ List.mem_append_right _
                    (List.mem_cons_of_mem _ (List.mem_cons_of_mem _ hm))))
                  (fun he => hQrest (he ▸ hm))
                  (fun he => hnid_ys (he ▸ List.mem_cons_of_mem _ hm))
                  (chainSeg_mem hq5 hm).1
      · have hcast : xs ++ nid :: N :: Q :: rest = (xs ++ [nid]) ++ N :: Q :: rest := by
          simp
        rw [hcast, List.nodup_middle, List.nodup_cons]
        constructor
        · intro hm
          apply hfresh
          have : (xs ++ [nid]) ++ Q :: rest = xs ++ nid :: Q :: rest := by simp
          rw [this] at hm
          exact hm
        · have : (xs ++ [nid]) ++ Q :: rest = xs ++ nid :: Q :: rest := by simp
          rw [this]
          exact hnodup

/-- Effect of `insertBeforeNode` on the spine: the fresh node id lands
immediately before `nid`. -/
theorem insertBeforeNode_rep {h : Heap α} {lid : Nat} {xs ys : List Nat} {nid : Nat}
    (hrep : ListRep h lid (xs ++ nid :: ys)) (v : α) :
    (insertBeforeNode h lid nid v).2 = some h.nodes.length ∧
    (insertBeforeNode h lid nid v).1.nodes.length = h.nodes.length + 1 ∧
    (insertBeforeNode h lid nid v).1.lists.length = h.lists.length ∧
    ((insertBeforeNode h lid nid v).1.nodeD h.nodes.length).value = v ∧
    (∀ m, m < h.nodes.length →
      ((insertBeforeNode h lid nid v).1.nodeD m).value = (h.nodeD m).value) ∧
    (∀ m, m ≠ h.nodes.length →
      ((insertBeforeNode h lid nid v).1.nodeD m).owner = (h.nodeD m).owner) ∧
    ListRep (insertBeforeNode h lid nid v).1 lid (xs ++ h.nodes.length :: nid :: ys) := by
  have hfresh : h.nodes.length ∉ xs ++ nid :: ys := listRep_fresh_not_mem hrep
  obtain ⟨hlid, hfirst, hlast, hlen, hchain, hnodup⟩ := hrep
  have hmid := List.nodup_middle.1 hnodup
  have hnin : nid ∉ xs ++ ys := (List.nodup_cons.1 hmid).1
  have hrest_nd : (xs ++ ys).Nodup := (List.nodup_cons.1 hmid).2
  have hnid_xs : nid ∉ xs := fun hm => hnin (List.mem_append_left _ hm)
  have hnid_ys : nid ∉ ys := fun hm => hnin (List.mem_append_right _ hm)
  obtain ⟨hxs, hn1, hn2, hn3, hn4, hn5⟩ := (chainSeg_append xs (nid :: ys)).1 hchain
  have hownne : ¬((h.nodeD nid).owner ≠ some lid) := by simp [hn2]
  rcases List.eq_nil_or_concat' xs with rfl | ⟨zs, P, rfl⟩
  · -- `nid` is the head: delegation to `prepend`
    have hfirstEq : (h.hdr lid).firstNode = some nid := by
      rw [hfirst]
      rfl
    have hins : insertBeforeNode h lid nid v =
        ((prepend h lid v).1, some (prepend h lid v).2) := by
      simp only [insertBeforeNode]
      rw [if_neg hownne, if_pos hfirstEq]
    obtain ⟨a1, a2, a3, a4, a5, a6, a7⟩ :=
      prepend_rep ⟨hlid, hfirst, hlast, hlen, hchain, hnodup⟩ v
    rw [hins]
    exact ⟨by rw [a1], a2, a3, a4, a5, a6, a7⟩
  · -- middle insertion before `nid`
    have hPlt : P < h.nodes.length := (chainSeg_mem hxs (by simp)).1
    obtain ⟨hzs, hP1, hP2, hP3, hP4, -⟩ := (chainSeg_append zs [P]).1 hxs
    have hPnid : P ≠ nid := fun he => hnid_xs (he ▸ (by simp : P ∈ zs ++ [P]))
    have hPzs : P ∉ zs := by
      have hx : (zs ++ [P]).Nodup := by
        rw [List.nodup_append] at hrest_nd
        exact hrest_nd.1
      rw [List.nodup_append] at hx
      exact fun hm => hx.2.2 hm (List.mem_singleton_self P)
    have hdisj : ∀ a ∈ zs ++ [P], a ∉ nid :: ys := by
      intro a ha hb
      rcases List.mem_cons.1 hb with rfl | hb'
      · exact hnid_xs ha
      · rw [List.nodup_append] at hrest_nd
        exact hrest_nd.2.2 ha hb'
    have hfirstH : (h.hdr lid).firstNode = (zs ++ [P]).head? := by
      rw [hfirst]
      exact List.head?_append_of_ne_nil _ (by simp)
    have hfirstne : ¬((h.hdr lid).firstNode = some nid) := by
      rw [hfirstH, List.head?_eq_head (by simp)]
      intro hEq
      exact hnid_xs ((Option.some.inj hEq) ▸ List.head_mem (by simp))
    have hprev : (h.nodeD nid).prev = some P := by
      rw [hn3]
      simp
    have hins : insertBeforeNode h lid nid v =
        ((((h.alloc ⟨some lid, v, some P, some nid⟩).1.setNext P
              (some h.nodes.length)).setPrev nid (some h.nodes.length)).setHdr lid
          { h.hdr lid with length := (h.hdr lid).length + 1 },
         some h.nodes.length) := by
      simp only [insertBeforeNode, Heap.alloc_snd]
      rw [if_neg hownne, if_neg hfirstne, hprev]
      simp only [Option.getD_some]
      rw [Heap.hdr_setPrev, Heap.hdr_setNext, Heap.hdr_alloc]
    rw [hins]
    set N := h.nodes.length with hNdef
    have hPN : P ≠ N := Nat.ne_of_lt hPlt
    have hnidN : nid ≠ N := Nat.ne_of_lt hn1
    set hMid := ((h.alloc ⟨some lid, v, some P, some nid⟩).1.setNext P (some N)).setPrev nid
      (some N) with hMidDef
    have hMlen : hMid.nodes.length = N + 1 := by
      rw [hMidDef]
      simp
    have hMnodeN : hMid.nodeD N = ⟨some lid, v, some P, some nid⟩ := by
      rw [hMidDef, Heap.nodeD_setPrev_ne _ _ _ _ hnidN, Heap.nodeD_setNext_ne _ _ _ _ hPN,
        hNdef, Heap.nodeD_alloc_new]
    have hMnodeP : hMid.nodeD P = { h.nodeD P with next := some N } := by
      rw [hMidDef, Heap.nodeD_setPrev_ne _ _ _ _ (Ne.symm hPnid),
        Heap.nodeD_setNext_self _ _ _ (by simp [hNdef]; omega),
        Heap.nodeD_alloc_old _ _ _ hPlt]
    have hMnodeNid : hMid.nodeD nid = { h.nodeD nid with prev := some N } := by
      rw [hMidDef, Heap.nodeD_setPrev_self _ _ _ (by simp [hNdef]; omega),
        Heap.nodeD_setNext_ne _ _ _ _ hPnid, Heap.nodeD_alloc_old _ _ _ hn1]
    have hMother : ∀ m, m ≠ N → m ≠ P → m ≠ nid → m < N → hMid.nodeD m = h.nodeD m := by
      intro m hm1 hm2 hm3 hm4
      rw [hMidDef, Heap.nodeD_setPrev_ne _ _ _ _ (Ne.symm hm3),
        Heap.nodeD_setNext_ne _ _ _ _ (Ne.symm hm2), Heap.nodeD_alloc_old _ _ _ hm4]
    have hfHdr : (hMid.setHdr lid
        { h.hdr lid with length := (h.hdr lid).length + 1 }).hdr lid =
        { h.hdr lid with length := (h.hdr lid).length + 1 } := by
      apply Heap.hdr_setHdr_self
      rw [hMidDef]
      simpa using hlid
    refine ⟨rfl, by simpa using hMlen, by rw [Heap.lists_length_setHdr, hMidDef]; simp, ?_,
      ?_, ?_, ?_⟩
    · rw [Heap.nodeD_setHdr, hMnodeN]
    · intro m hm
      rcases eq_or_ne m P with rfl | hmP
      · rw [Heap.nodeD_setHdr, hMnodeP]
      rcases eq_or_ne m nid with rfl | hmnid
      · rw [Heap.nodeD_setHdr, hMnodeNid]
      · rw [Heap.nodeD_setHdr, hMother m (Nat.ne_of_lt hm) hmP hmnid hm]
    · intro m hm
      rcases Nat.lt_or_ge m N with hlt | hge
      · rcases eq_or_ne m P with rfl | hmP
        · rw [Heap.nodeD_setHdr, hMnodeP]
        rcases eq_or_ne m nid with rfl | hmnid
        · rw [Heap.nodeD_setHdr, hMnodeNid]
        · rw [Heap.nodeD_setHdr, hMother m hm hmP hmnid hlt]
      · have hge' : hMid.nodes.length ≤ m := by omega
        rw [Heap.nodeD_setHdr, Heap.nodeD_out _ _ hge', Heap.nodeD_out _ _ (by omega)]
    · refine ⟨?_, ?_, ?_, ?_, ?_, ?_⟩
      · rw [Heap.lists_length_setHdr, hMidDef]
        simpa using hlid
      · have hh : ((zs ++ [P]) ++ N :: nid :: ys).head? = (zs ++ [P]).head? :=
          List.head?_append_of_ne_nil _ (by simp)
        rw [hfHdr]
        show (h.hdr lid).firstNode = _
        rw [hh, hfirstH]
      · rw [hfHdr]
        show (h.hdr lid).lastNode = _
        have hg1 : ((zs ++ [P]) ++ nid :: ys).getLast? = (nid :: ys).getLast? :=
          List.getLast?_append_of_ne_nil _ (by simp)
        have hg2 : ((zs ++ [P]) ++ N :: nid :: ys).getLast? = (nid :: ys).getLast? := by
          rw [List.getLast?_append_of_ne_nil _ (by simp)]
          cases ys <;> simp [List.getLast?_cons_cons]
        rw [hg2, hlast, hg1]
      · rw [hfHdr]
        show (h.hdr lid).length + 1 = _
        rw [hlen]
        simp only [List.length_append, List.length_cons]
        push_cast
        omega
      · refine (chainSeg_append (zs ++ [P]) (N :: nid :: ys)).2 ⟨?_, ?_⟩
        · refine (chainSeg_append zs [P]).2 ⟨?_, ?_⟩
          · refine chainSeg_congr (by simp [hMlen]) ?_ hzs
            intro m hm
            rw [Heap.nodeD_setHdr]
            exact hMother m (fun he => hfresh (he ▸ List.mem_append_left _
                (List.mem_append_left _ hm)))
              (fun he => hPzs (he ▸ hm))
              (fun he => hnid_xs (he ▸ List.mem_append_left _ hm))
              (chainSeg_mem hzs hm).1
          · refine ⟨by simp [hMlen]; omega, ?_, ?_, ?_, trivial⟩
            · rw [Heap.nodeD_setHdr, hMnodeP]
              exact hP2
            · rw [Heap.nodeD_setHdr, hMnodeP]
              exact hP3
            · rw [Heap.nodeD_setHdr, hMnodeP]
              rfl
        · refine ⟨by simp [hMlen], ?_, ?_, ?_, ?_⟩
          · rw [Heap.nodeD_setHdr, hMnodeN]
          · rw [Heap.nodeD_setHdr, hMnodeN]
            simp
          · rw [Heap.nodeD_setHdr, hMnodeN]
            rfl
          · refine ⟨by simp [hMlen]; omega, ?_, ?_, ?_, ?_⟩
            · rw [Heap.nodeD_setHdr, hMnodeNid]
              exact hn2
            · rw [Heap.nodeD_setHdr, hMnodeNid]
            · rw [Heap.nodeD_setHdr, hMnodeNid]
              exact hn4
            · refine chainSeg_congr (by simp [hMlen]) ?_ hn5
              intro m hm
              rw [Heap.nodeD_setHdr]
              exact hMother m
                (fun he => hfresh (he ▸ List.mem_append_right _ (List.mem_cons_of_mem _ hm)))
                (fun he => hdisj P (by simp) (he ▸ List.mem_cons_of_mem _ hm))
                (fun he => hnid_ys (he ▸ hm))
                (chainSeg_mem hn5 hm).1
      · rw [List.nodup_middle, List.nodup_cons]
        exact ⟨fun hm => hfresh hm, hnodup⟩

@[simp] theorem spliceRemoveLoop_zero (h : Heap α) (lid : Nat) (cur : Option Nat) :
    spliceRemoveLoop h lid cur 0 = (h, [], cur) := by
  cases cur <;> rfl

@[simp] theorem spliceRemoveLoop_none (h : Heap α) (lid : Nat) (k : Nat) :
    spliceRemoveLoop h lid none k = (h, [], none) := by
  cases k <;> rfl

/-- Effect of the `splice` deletion loop starting at the head of `ys`:
it removes `min k ys.length` nodes, returns their values in order, and
leaves `nodeToRemove` at the first surviving node of `ys`. -/
theorem spliceRemoveLoop_rep {lid : Nat} (k : Nat) :
    ∀ {h : Heap α} {xs ys : List Nat}, ListRep h lid (xs ++ ys) →
    (spliceRemoveLoop h lid ys.head? k).2.1 = vals h (ys.take k) ∧
    (spliceRemoveLoop h lid ys.head? k).2.2 = (ys.drop k).head? ∧
    ListRep (spliceRemoveLoop h lid ys.head? k).1 lid (xs ++ ys.drop k) ∧
    (spliceRemoveLoop h lid ys.head? k).1.nodes.length = h.nodes.length ∧
    (spliceRemoveLoop h lid ys.head? k).1.lists.length = h.lists.length ∧
    (∀ m, ((spliceRemoveLoop h lid ys.head? k).1.nodeD m).value = (h.nodeD m).value) ∧
    (∀ m, m ∉ ys.take k →
      ((spliceRemoveLoop h lid ys.head? k).1.nodeD m).owner = (h.nodeD m).owner) ∧
    (∀ m ∈ ys.take k, ((spliceRemoveLoop h lid ys.head? k).1.nodeD m).owner = none) := by
  induction k with
  | zero =>
    intro h xs ys hrep
    refine ⟨by simp, by simp, by simpa using hrep, by simp, by simp, by simp, by simp, by simp⟩
  | succ k ih =>
    intro h xs ys hrep
    cases ys with
    | nil =>
      refine ⟨by simp, by simp, by simpa using hrep, by simp, by simp, by simp, by simp, by simp⟩
    | cons Y ytail =>
      have hmid := List.nodup_middle.1 hrep.nodup
      have hYyt : Y ∉ ytail := fun hm =>
        (List.nodup_cons.1 hmid).1 (List.mem_append_right _ hm)
      obtain ⟨-, -, -, -, hn4, -⟩ := (chainSeg_append xs (Y :: ytail)).1 hrep.chain
      obtain ⟨r1, r2, r3, r4, r5, r6, r7⟩ := remove_rep hrep
      have hstep : spliceRemoveLoop h lid (Y :: ytail).head? (k + 1) =
          ((spliceRemoveLoop (remove h lid Y).1 lid ytail.head? k).1,
            (h.nodeD Y).value ::
              (spliceRemoveLoop (remove h lid Y).1 lid ytail.head? k).2.1,
            (spliceRemoveLoop (remove h lid Y).1 lid ytail.head? k).2.2) := by
        show spliceRemoveLoop h lid (some Y) (k + 1) = _
        rw [spliceRemoveLoop]
        rw [hn4]
        simp only [headOr_none]
      obtain ⟨i1, i2, i3, i4, i5, i6, i7, i8⟩ := ih r7
      rw [hstep]
      refine ⟨?_, ?_, i3, by rw [i4, r2], by rw [i5, r3], ?_, ?_, ?_⟩
      · show _ :: _ = vals h ((Y :: ytail).take (k + 1))
        rw [List.take_succ_cons, vals_cons, i1]
        exact congrArg _ (vals_congr (fun nid _ => r4 nid))
      · rw [i2]
        rfl
      · intro m
        rw [i6 m, r4 m]
      · intro m hm
        rw [List.take_succ_cons, List.mem_cons] at hm
        push_neg at hm
        rw [i7 m hm.2, r5 m hm.1]
      · intro m hm
        rw [List.take_succ_cons, List.mem_cons] at hm
        rcases hm with rfl | hm'
        · rw [i7 m (fun hmem => hYyt (List.mem_of_mem_take hmem)), r6]
        · exact i8 m hm'

/-- Effect of the append-at-end branch of `splice`'s insertion phase. -/
theorem appendAll_rep {lid : Nat} (items : List α) :
    ∀ {h : Heap α} {ns : List Nat}, ListRep h lid ns →
    ∃ ids : List Nat,
      ListRep (appendAll h lid items) lid (ns ++ ids) ∧
      vals (appendAll h lid items) ids = items ∧
      (appendAll h lid items).nodes.length = h.nodes.length + items.length ∧
      (appendAll h lid items).lists.length = h.lists.length ∧
      (∀ m, m < h.nodes.length →
        ((appendAll h lid items).nodeD m).value = (h.nodeD m).value) ∧
      (∀ m, m ∉ ids → ((appendAll h lid items).nodeD m).owner = (h.nodeD m).owner) := by
  induction items with
  | nil =>
    intro h ns hrep
    exact ⟨[], by simpa using hrep, rfl, by simp [appendAll], rfl, fun m _ => rfl,
      fun m _ => rfl⟩
  | cons item rest ih =>
    intro h ns hrep
    obtain ⟨a1, a2, a3, a4, a5, a6, a7⟩ := append_rep hrep item
    obtain ⟨ids, c1, c2, c3, c4, c5, c6⟩ := ih a7
    have hunf : appendAll h lid (item :: rest) = appendAll (append h lid item).1 lid rest := rfl
    rw [hunf]
    refine ⟨h.nodes.length :: ids, ?_, ?_, ?_, ?_, ?_, ?_⟩
    · have : (ns ++ [h.nodes.length]) ++ ids = ns ++ h.nodes.length :: ids := by simp
      rw [← this]
      exact c1
    · rw [vals_cons, c2]
      have hv : ((appendAll (append h lid item).1 lid rest).nodeD h.nodes.length).value
          = ((append h lid item).1.nodeD h.nodes.length).value := by
        apply c5
        omega
      rw [hv, a4]
    · rw [c3, a2]
      simp only [List.length_cons]
      omega
    · rw [c4, a3]
    · intro m hm
      rw [c5 m (by omega), a5 m hm]
    · intro m hm
      rw [List.mem_cons] at hm
      push_neg at hm
      rw [c6 m hm.2, a6 m hm.1]

/-- The insertion loop in the `lastInserted = some li` state inserts all
remaining items, in order, between `li` and `anchor`. -/
theorem spliceInsertLoop_some_rep {lid anchor : Nat} (items : List α) :
    ∀ {h : Heap α} {pre post : List Nat} {li : Nat},
      ListRep h lid (pre ++ li :: anchor :: post) →
    ∃ ids : List Nat,
      ListRep (spliceInsertLoop h lid anchor (some li) items) lid
        (pre ++ li :: (ids ++ anchor :: post)) ∧
      vals (spliceInsertLoop h lid anchor (some li) items) ids = items ∧
      (spliceInsertLoop h lid anchor (some li) items).nodes.length
        = h.nodes.length + items.length ∧
      (spliceInsertLoop h lid anchor (some li) items).lists.length = h.lists.length ∧
      (∀ m, m < h.nodes.length →
        ((spliceInsertLoop h lid anchor (some li) items).nodeD m).value = (h.nodeD m).value) ∧
      (∀ m, m ∉ ids →
        ((spliceInsertLoop h lid anchor (some li) items).nodeD m).owner
          = (h.nodeD m).owner) := by
  induction items with
  | nil =>
    intro h pre post li hrep
    exact ⟨[], by simpa using hrep, rfl, by simp [spliceInsertLoop], rfl, fun m _ => rfl,
      fun m _ => rfl⟩
  | cons item rest ih =>
    intro h pre post li hrep
    obtain ⟨b1, b2, b3, b4, b5, b6, b7⟩ := insertAfterNode_rep hrep item
    have hunf : spliceInsertLoop h lid anchor (some li) (item :: rest) =
        spliceInsertLoop (insertAfterNode h lid li item).1 lid anchor
          (insertAfterNode h lid li item).2 rest := rfl
    rw [hunf, b1]
    have hrep' : ListRep (insertAfterNode h lid li item).1 lid
        ((pre ++ [li]) ++ h.nodes.length :: anchor :: post) := by
      have : (pre ++ [li]) ++ h.nodes.length :: anchor :: post
          = pre ++ li :: h.nodes.length :: anchor :: post := by simp
      rw [this]
      exact b7
    obtain ⟨ids, c1, c2, c3, c4, c5, c6⟩ := ih hrep'
    refine ⟨h.nodes.length :: ids, ?_, ?_, ?_, ?_, ?_, ?_⟩
    · have : (pre ++ [li]) ++ h.nodes.length :: (ids ++ anchor :: post)
          = pre ++ li :: (h.nodes.length :: ids ++ anchor :: post) := by simp
      rw [← this]
      exact c1
    · rw [vals_cons, c2]
      have hv : ((spliceInsertLoop (insertAfterNode h lid li item).1 lid anchor
          (some h.nodes.length) rest).nodeD h.nodes.length).value
          = (((insertAfterNode h lid li item).1).nodeD h.nodes.length).value := by
        apply c5
        omega
      rw [hv, b4]
    · rw [c3, b2]
      simp only [List.length_cons]
      omega
    · rw [c4, b3]
    · intro m hm
      rw [c5 m (by omega), b5 m hm]
    · intro m hm
      rw [List.mem_cons] at hm
      push_neg at hm
      rw [c6 m hm.2, b6 m hm.1]

/-- The insertion phase of `splice` with a defined `nodeToRemove` inserts
all items, in order, immediately before it. -/
theorem spliceInsertLoop_none_rep {lid anchor : Nat} (items : List α)
    {h : Heap α} {pre post : List Nat}
    (hrep : ListRep h lid (pre ++ anchor :: post)) :
    ∃ ids : List Nat,
      ListRep (spliceInsertLoop h lid anchor none items) lid
        (pre ++ (ids ++ anchor :: post)) ∧
      vals (spliceInsertLoop h lid anchor none items) ids = items ∧
      (spliceInsertLoop h lid anchor none items).nodes.length
        = h.nodes.length + items.length ∧
      (spliceInsertLoop h lid anchor none items).lists.length = h.lists.length ∧
      (∀ m, m < h.nodes.length →
        ((spliceInsertLoop h lid anchor none items).nodeD m).value = (h.nodeD m).value) ∧
      (∀ m, m ∉ ids →
        ((spliceInsertLoop h lid anchor none items).nodeD m).owner = (h.nodeD m).owner) := by
  cases items with
  | nil =>
    exact ⟨[], by simpa using hrep, rfl, by simp [spliceInsertLoop], rfl, fun m _ => rfl,
      fun m _ => rfl⟩
  | cons item rest =>
    obtain ⟨b1, b2, b3, b4, b5, b6, b7⟩ := insertBeforeNode_rep hrep item
    have hunf : spliceInsertLoop h lid anchor none (item :: rest) =
        spliceInsertLoop (insertBeforeNode h lid anchor item).1 lid anchor
          (insertBeforeNode h lid anchor item).2 rest := rfl
    rw [hunf, b1]
    obtain ⟨ids, c1, c2, c3, c4, c5, c6⟩ := spliceInsertLoop_some_rep rest b7
    refine ⟨h.nodes.length :: ids, ?_, ?_, ?_, ?_, ?_, ?_⟩
    · simpa using c1
    · rw [vals_cons, c2]
      have hv : ((spliceInsertLoop (insertBeforeNode h lid anchor item).1 lid anchor
          (some h.nodes.length) rest).nodeD h.nodes.length).value
          = (((insertBeforeNode h lid anchor item).1).nodeD h.nodes.length).value := by
        apply c5
        omega
      rw [hv, b4]
    · rw [c3, b2]
      simp only [List.length_cons]
      omega
    · rw [c4, b3]
    · intro m hm
      rw [c5 m (by omega), b5 m hm]
    · intro m hm
      rw [List.mem_cons] at hm
      push_neg at hm
      rw [c6 m hm.2, b6 m hm.1]

/-! ### Traversal lemmas for a represented list -/

theorem nodup_length_le {l l' : List Nat} (h : l.Nodup) (hs : l ⊆ l') :
    l.length ≤ l'.length := by
  classical
  calc l.length = l.toFinset.card := (List.toFinset_card_of_nodup h).symm
    _ ≤ l'.toFinset.card := Finset.card_le_card (fun x hx => by
        rw [List.mem_toFinset] at *
        exact hs hx)
    _ ≤ l'.length := l'.toFinset_card_le

theorem listRep_length_le {h : Heap α} {lid : Nat} {ns : List Nat}
    (hrep : ListRep h lid ns) : ns.length ≤ h.nodes.length := by
  have := nodup_length_le hrep.nodup
    (fun m hm => List.mem_range.2 (listRep_mem_lt hrep hm))
  simpa using this

theorem walkNext_listRep {h : Heap α} {lid : Nat} {ns : List Nat}
    (hrep : ListRep h lid ns) (k : Nat) (hk : k ≤ ns.length) :
    walkNext h (h.hdr lid).firstNode k = ns[k]? := by
  rw [hrep.first_eq, ← List.head?_drop, ← headOr_none ns, ← headOr_none (ns.drop k)]
  exact walkNext_chainSeg hrep.chain k hk

theorem walkPrev_listRep {h : Heap α} {lid : Nat} {ns : List Nat}
    (hrep : ListRep h lid ns) (j : Nat) (hj : j ≤ ns.length) :
    walkPrev h (h.hdr lid).lastNode j = (ns.take (ns.length - j)).getLast? := by
  rw [hrep.last_eq, ← lastOr_none ns, ← lastOr_none (ns.take (ns.length - j))]
  exact walkPrev_chainSeg hrep.chain j hj

theorem getLast?_take_succ {l : List Nat} {a : Nat} (ha : a < l.length) :
    (l.take (a + 1)).getLast? = l[a]? := by
  rw [List.getLast?_eq_getElem?, List.length_take]
  have hmin : min (a + 1) l.length = a + 1 := by omega
  rw [hmin]
  simp only [Nat.add_sub_cancel]
  exact List.getElem?_take_of_lt (by omega)

/-- `getNodeAt` normalizes, bounds-checks, and returns the spine entry at
the normalized index — by whichever traversal direction it takes. -/
theorem getNodeAt_rep {h : Heap α} {lid : Nat} {ns : List Nat}
    (hrep : ListRep h lid ns) (i : Int) :
    getNodeAt h lid i =
      (if 0 ≤ (if i < 0 then (ns.length : Int) + i else i) ∧
          (if i < 0 then (ns.length : Int) + i else i) < (ns.length : Int)
        then ns[(if i < 0 then (ns.length : Int) + i else i).toNat]?
        else none) := by
  simp only [getNodeAt, hrep.len_eq]
  set a : Int := if i < 0 then (ns.length : Int) + i else i with ha
  rcases Classical.em (a < 0 ∨ a ≥ (ns.length : Int)) with hout | hin
  · rw [if_pos hout]
    rcases hout with h1 | h1
    · rw [if_neg (by omega)]
    · rw [if_neg (by omega)]
  · push_neg at hin
    have hin' : 0 ≤ a ∧ a < (ns.length : Int) := ⟨by omega, hin.2⟩
    have hcond : ¬(a < 0 ∨ a ≥ (ns.length : Int)) := by omega
    rw [if_neg hcond, if_pos hin']
    rcases Classical.em (a ≤ (ns.length : Int) - 1 - a) with hfw | hbw
    · rw [if_pos hfw]
      exact walkNext_listRep hrep a.toNat (by omega)
    · rw [if_neg hbw]
      rw [walkPrev_listRep hrep ((ns.length : Int) - 1 - a).toNat (by omega)]
      have hlen : ns.length - ((ns.length : Int) - 1 - a).toNat = a.toNat + 1 := by omega
      rw [hlen]
      exact getLast?_take_succ (by omega)

/-- `toArray` returns the values along the spine. -/
theorem toArray_rep {h : Heap α} {lid : Nat} {ns : List Nat}
    (hrep : ListRep h lid ns) : toArray h lid = vals h ns := by
  show walkVals h (h.hdr lid).firstNode h.nodes.length = vals h ns
  rw [hrep.first_eq]
  exact walkVals_chainSeg hrep.chain _ (listRep_length_le hrep)

/-! ### The `splice` specification -/

theorem startAt_le {ns : List Nat} {start : SpliceStart} {s : Nat}
    (hs : StartAt ns start s) : s ≤ ns.length := by
  cases start with
  | undef => exact le_of_eq hs
  | idx i =>
    have hseq : (s : Int) =
        if i < 0 then max 0 ((ns.length : Int) + i) else min i (ns.length : Int) := hs
    have hle : (s : Int) ≤ (ns.length : Int) := by
      rw [hseq]
      rcases Classical.em (i < 0) with hneg | hpos
      · rw [if_pos hneg]
        rcases max_choice 0 ((ns.length : Int) + i) with hm | hm <;> rw [hm] <;> omega
      · rw [if_neg hpos]
        exact min_le_right _ _
    exact_mod_cast hle
  | node nid =>
    have hs' : ns[s]? = some nid := hs
    by_contra hc
    push_neg at hc
    rw [List.getElem?_eq_none (Nat.le_of_lt hc)] at hs'
    cases hs'

/-- The prep phase resolves the start argument to the node standing at the
`StartAt` position. -/
theorem spliceResolve_rep {h : Heap α} {lid : Nat} {ns : List Nat} {start : SpliceStart}
    {s : Nat} (hrep : ListRep h lid ns) (hs : StartAt ns start s) :
    spliceResolve h lid start = some ((ns.drop s).head? : Option Nat) := by
  cases start with
  | undef =>
    have : s = ns.length := hs
    subst this
    simp [spliceResolve]
  | idx i =>
    have hsle : s ≤ ns.length := startAt_le hs
    have hseq : (s : Int) =
        if i < 0 then max 0 ((ns.length : Int) + i) else min i (ns.length : Int) := hs
    show some _ = _
    simp only [spliceResolve, hrep.len_eq, ← hseq]
    rcases Classical.em (s = ns.length) with rfl | hlt
    · rw [if_pos (by omega)]
      simp
    · have hslt : s < ns.length := by omega
      rw [if_neg (by push_neg; exact_mod_cast hslt)]
      rw [getNodeAt_rep hrep]
      have ha : (if (s : Int) < 0 then (ns.length : Int) + s else (s : Int)) = (s : Int) := by
        rw [if_neg (by omega)]
      rw [ha]
      rw [if_pos ⟨by omega, by exact_mod_cast hslt⟩]
      rw [List.head?_drop]
      have hts : ((s : Int)).toNat = s := by omega
      rw [hts]
  | node nid =>
    have hs' : ns[s]? = some nid := hs
    have hmem : nid ∈ ns := List.getElem?_mem hs'
    have hown : (h.nodeD nid).owner = some lid := (chainSeg_mem hrep.chain hmem).2
    simp only [spliceResolve, hown]
    rw [if_neg (by simp)]
    rw [List.head?_drop, hs']

/-- Full specification of the removal + insertion phases of `splice`,
starting at position `s` of the spine: the values of the first
`deleteCount` (clamped) nodes from position `s` are returned, those nodes
leave the list, and the items enter the list at position `s` in order. -/
theorem spliceRun_rep {h : Heap α} {lid : Nat} {ns : List Nat} {s : Nat}
    (hrep : ListRep h lid ns) (hsle : s ≤ ns.length) (deleteCount : Int) (items : List α) :
    (spliceRun h lid (ns.drop s).head? deleteCount items).2
      = vals h ((ns.drop s).take deleteCount.toNat) ∧
    ∃ ids : List Nat,
      ListRep (spliceRun h lid (ns.drop s).head? deleteCount items).1 lid
        (ns.take s ++ ids ++ ns.drop (s + deleteCount.toNat)) ∧
      vals (spliceRun h lid (ns.drop s).head? deleteCount items).1 (ns.take s)
        = vals h (ns.take s) ∧
      vals (spliceRun h lid (ns.drop s).head? deleteCount items).1 ids = items ∧
      vals (spliceRun h lid (ns.drop s).head? deleteCount items).1
          (ns.drop (s + deleteCount.toNat))
        = vals h (ns.drop (s + deleteCount.toNat)) ∧
      (spliceRun h lid (ns.drop s).head? deleteCount items).1.lists.length
        = h.lists.length ∧
      (∀ m, m ∉ ids → m ∉ (ns.drop s).take deleteCount.toNat →
        ((spliceRun h lid (ns.drop s).head? deleteCount items).1.nodeD m).owner
          = (h.nodeD m).owner) ∧
      (∀ m ∈ (ns.drop s).take deleteCount.toNat, m ∉ ids →
        ((spliceRun h lid (ns.drop s).head? deleteCount items).1.nodeD m).owner = none) := by
  have hns : ns.take s ++ ns.drop s = ns := List.take_append_drop s ns
  have hrep' : ListRep h lid (ns.take s ++ ns.drop s) := by
    rw [hns]
    exact hrep
  obtain ⟨i1, i2, i3, i4, i5, i6, i7, i8⟩ := spliceRemoveLoop_rep deleteCount.toNat hrep'
  have hdd : (ns.drop s).drop deleteCount.toNat = ns.drop (s + deleteCount.toNat) := by
    rw [List.drop_drop, Nat.add_comm]
  have hmemlt : ∀ m ∈ ns, m < h.nodes.length := fun m hm => listRep_mem_lt hrep hm
  have htks : ∀ m ∈ ns.take s, m < h.nodes.length :=
    fun m hm => hmemlt m (List.mem_of_mem_take hm)
  have hdrs : ∀ m ∈ ns.drop (s + deleteCount.toNat), m < h.nodes.length :=
    fun m hm => hmemlt m (List.mem_of_mem_drop hm)
  rcases Classical.em (items = []) with rfl | hne
  · -- no insertion phase
    have hrun : spliceRun h lid (ns.drop s).head? deleteCount [] =
        ((spliceRemoveLoop h lid (ns.drop s).head? deleteCount.toNat).1,
         (spliceRemoveLoop h lid (ns.drop s).head? deleteCount.toNat).2.1) := by
      simp [spliceRun]
    rw [hrun]
    refine ⟨i1, [], ?_, ?_, rfl, ?_, i5, ?_, ?_⟩
    · rw [List.append_nil, ← hdd]
      exact i3
    · exact vals_congr fun nid _ => i6 nid
    · exact vals_congr fun nid _ => i6 nid
    · intro m _ hm2
      exact i7 m hm2
    · intro m hm hm2
      exact i8 m hm
  · have hlen0 : items.length > 0 := by
      cases items
      · simp at hne
      · simp
    rw [← hdd] at hdrs
    cases hdrop : (ns.drop s).drop deleteCount.toNat with
    | nil =>
      have hcur : (spliceRemoveLoop h lid (ns.drop s).head? deleteCount.toNat).2.2 = none := by
        rw [i2, hdrop]
        rfl
      have hrun : spliceRun h lid (ns.drop s).head? deleteCount items =
          (appendAll (spliceRemoveLoop h lid (ns.drop s).head? deleteCount.toNat).1 lid items,
           (spliceRemoveLoop h lid (ns.drop s).head? deleteCount.toNat).2.1) := by
        simp only [spliceRun, hcur]
        rw [if_pos hlen0]
      rw [hrun]
      rw [hdrop] at i3
      obtain ⟨ids, c1, c2, c3, c4, c5, c6⟩ := appendAll_rep items i3
      refine ⟨i1, ids, ?_, ?_, c2, ?_, by rw [c4, i5], ?_, ?_⟩
      · rw [← hdd, hdrop, List.append_nil]
        rw [List.append_nil] at c1
        exact c1
      · refine vals_congr fun nid hm => ?_
        rw [c5 nid (by rw [i4]; exact htks nid hm), i6 nid]
      · refine vals_congr fun nid hm => ?_
        rw [← hdd, hdrop] at hm
        cases hm
      · intro m hm1 hm2
        rw [c6 m hm1, i7 m hm2]
      · intro m hm hm2
        rw [c6 m hm2, i8 m hm]
    | cons ntr tail =>
      have hcur : (spliceRemoveLoop h lid (ns.drop s).head? deleteCount.toNat).2.2
          = some ntr := by
        rw [i2, hdrop]
        rfl
      have hrun : spliceRun h lid (ns.drop s).head? deleteCount items =
          (spliceInsertLoop
            (spliceRemoveLoop h lid (ns.drop s).head? deleteCount.toNat).1 lid ntr none items,
           (spliceRemoveLoop h lid (ns.drop s).head? deleteCount.toNat).2.1) := by
        simp only [spliceRun, hcur]
        rw [if_pos hlen0]
      rw [hrun]
      rw [hdrop] at i3
      obtain ⟨ids, c1, c2, c3, c4, c5, c6⟩ := spliceInsertLoop_none_rep items i3
      refine ⟨i1, ids, ?_, ?_, c2, ?_, by rw [c4, i5], ?_, ?_⟩
      · rw [← hdd, hdrop, ← List.append_assoc] at *
        exact c1
      · refine vals_congr fun nid hm => ?_
        rw [c5 nid (by rw [i4]; exact htks nid hm), i6 nid]
      · refine vals_congr fun nid hm => ?_
        rw [← hdd, hdrop] at hm
        have hmlt : nid < h.nodes.length := hdrs nid (by rw [hdrop]; exact hm)
        rw [c5 nid (by rw [i4]; exact hmlt), i6 nid]
      · intro m hm1 hm2
        rw [c6 m hm1, i7 m hm2]
      · intro m hm hm2
        rw [c6 m hm2, i8 m hm]

theorem splice_eq_run {h : Heap α} {lid : Nat} {ns : List Nat} {start : SpliceStart}
    {s : Nat} (hrep : ListRep h lid ns) (hs : StartAt ns start s)
    (deleteCount : Int) (items : List α) :
    splice h lid start deleteCount items
      = spliceRun h lid (ns.drop s).head? deleteCount items := by
  show (match spliceResolve h lid start with
    | none => (h, ([] : List α))
    | some startNode => spliceRun h lid startNode deleteCount items) = _
  rw [spliceResolve_rep hrep hs]

/-- A `splice` whose start is a node of another list (or a removed node)
returns an empty list and leaves the heap untouched. -/
theorem splice_foreign (h : Heap α) (lid : Nat) (nid : Nat) (deleteCount : Int)
    (items : List α) (ho : (h.nodeD nid).owner ≠ some lid) :
    splice h lid (.node nid) deleteCount items = (h, []) := by
  show (match spliceResolve h lid (.node nid) with
    | none => (h, ([] : List α))
    | some startNode => spliceRun h lid startNode deleteCount items) = _
  have : spliceResolve h lid (.node nid) = none := by
    simp only [spliceResolve]
    rw [if_pos ho]
  rw [this]

@[simp] theorem spliceRun_zero (h : Heap α) (lid : Nat) (cur : Option Nat) :
    spliceRun h lid cur 0 [] = (h, []) := by
  simp [spliceRun]

theorem newList_hdr (h : Heap α) :
    (newList h).1.hdr (newList h).2 = ⟨none, none, 0⟩ := by
  show ((⟨h.nodes, h.lists ++ [⟨none, none, 0⟩]⟩ : Heap α).hdr h.lists.length) = _
  rw [Heap.hdr_def]
  show ((h.lists ++ [⟨none, none, 0⟩])[h.lists.length]?).getD _ = _
  rw [List.getElem?_concat_length]
  rfl

/-- The fresh list produced by `newList` is empty and well formed. -/
theorem newList_rep (h : Heap α) : ListRep (newList h).1 (newList h).2 [] := by
  refine ⟨?_, ?_, ?_, ?_, trivial, List.nodup_nil⟩
  · show h.lists.length < (h.lists ++ [(⟨none, none, 0⟩ : ListHdr)]).length
    simp
  · rw [newList_hdr]
    rfl
  · rw [newList_hdr]
    rfl
  · rw [newList_hdr]
    simp

/-- The constructor produces a well-formed list holding exactly `items`. -/
theorem constructList_rep (items : List α) (h : Heap α) :
    ∃ ids, ListRep (constructList h items).1 (constructList h items).2 ids ∧
      vals (constructList h items).1 ids = items := by
  cases items with
  | nil => exact ⟨[], by simpa [constructList] using newList_rep h, rfl⟩
  | cons item rest =>
    have hunf : constructList h (item :: rest) =
        (appendAll (newList h).1 (newList h).2 (item :: rest), (newList h).2) := by
      simp [constructList]
    obtain ⟨ids, c1, c2, c3, c4, c5, c6⟩ := appendAll_rep (item :: rest) (newList_rep h)
    rw [hunf]
    exact ⟨ids, by simpa using c1, c2⟩

/-- The skip-ahead loop never moves when `fromIndex ≤ 0`. -/
theorem skipToIndex_nonpos (h : Heap α) (fromIndex : Int) (hf : fromIndex ≤ 0)
    (cur : Option Nat) : skipToIndex h fromIndex cur 0 = (cur, 0) := by
  cases cur with
  | none => rw [skipToIndex]
  | some nid =>
    rw [skipToIndex]
    rw [if_neg (by omega)]

/-- `indexOf` with a negative `fromIndex` searches from the beginning. -/
theorem indexOf_neg_fromIndex [DecidableEq α] (h : Heap α) (lid : Nat) (x : α)
    (fromIndex : Int) (hf : fromIndex ≤ 0) :
    indexOf h lid x fromIndex = indexOf h lid x 0 := by
  unfold indexOf
  rw [skipToIndex_nonpos _ _ hf, skipToIndex_nonpos _ _ le_rfl]

/-! ### The public mutation surface as an operation language (for the
global well-formedness invariant) -/

section Inv

variable [Inhabited α]

theorem inv_append {h : Heap α} {lid : Nat} {ns : List Nat}
    (hinv : Inv h lid ns) (v : α) :
    Inv (append h lid v).1 lid (ns ++ [h.nodes.length]) := by
  obtain ⟨hrep, hcompl⟩ := hinv
  obtain ⟨a1, a2, a3, a4, a5, a6, a7⟩ := append_rep hrep v
  refine ⟨a7, ?_⟩
  intro m hm ho
  rcases eq_or_ne m h.nodes.length with rfl | hne
  · simp
  · rw [a6 m hne] at ho
    exact List.mem_append_left _ (hcompl m (by omega) ho)

theorem inv_prepend {h : Heap α} {lid : Nat} {ns : List Nat}
    (hinv : Inv h lid ns) (v : α) :
    Inv (prepend h lid v).1 lid (h.nodes.length :: ns) := by
  obtain ⟨hrep, hcompl⟩ := hinv
  obtain ⟨a1, a2, a3, a4, a5, a6, a7⟩ := prepend_rep hrep v
  refine ⟨a7, ?_⟩
  intro m hm ho
  rcases eq_or_ne m h.nodes.length with rfl | hne
  · simp
  · rw [a6 m hne] at ho
    exact List.mem_cons_of_mem _ (hcompl m (by omega) ho)

/-- A node id with `owner = some lid` is valid and on the spine. -/
theorem inv_owner_mem {h : Heap α} {lid : Nat} {ns : List Nat}
    (hinv : Inv h lid ns) {nid : Nat} (ho : (h.nodeD nid).owner = some lid) :
    nid ∈ ns := by
  rcases Nat.lt_or_ge nid h.nodes.length with hlt | hge
  · exact hinv.2 nid hlt ho
  · rw [Heap.nodeD_out _ _ hge] at ho
    cases ho

theorem inv_remove {h : Heap α} {lid : Nat} {ns : List Nat}
    (hinv : Inv h lid ns) (nid : Nat) :
    ∃ ns', Inv (remove h lid nid).1 lid ns' := by
  rcases Classical.em ((h.nodeD nid).owner = some lid) with ho | ho
  · obtain ⟨xs, ys, rfl⟩ := List.mem_iff_append.mp (inv_owner_mem hinv ho)
    obtain ⟨r1, r2, r3, r4, r5, r6, r7⟩ := remove_rep hinv.1
    refine ⟨xs ++ ys, r7, ?_⟩
    intro m hm hom
    have hmne : m ≠ nid := by
      intro he
      rw [he, r6] at hom
      cases hom
    rw [r5 m hmne] at hom
    have := hinv.2 m (by omega) hom
    rw [List.mem_append] at this ⊢
    rcases this with hx | hx
    · exact Or.inl hx
    · rcases List.mem_cons.1 hx with rfl | hx'
      · exact absurd rfl hmne
      · exact Or.inr hx'
  · rw [remove_foreign hinv.1 ho]
    exact ⟨ns, hinv⟩

theorem insertAfterNode_foreign {h : Heap α} {lid nid : Nat} (v : α)
    (ho : (h.nodeD nid).owner ≠ some lid) :
    insertAfterNode h lid nid v = (h, none) := by
  simp only [insertAfterNode]
  rw [if_pos ho]

theorem insertBeforeNode_foreign {h : Heap α} {lid nid : Nat} (v : α)
    (ho : (h.nodeD nid).owner ≠ some lid) :
    insertBeforeNode h lid nid v = (h, none) := by
  simp only [insertBeforeNode]
  rw [if_pos ho]

theorem inv_insertAfter {h : Heap α} {lid : Nat} {ns : List Nat}
    (hinv : Inv h lid ns) (nid : Nat) (v : α) :
    ∃ ns', Inv (insertAfterNode h lid nid v).1 lid ns' := by
  rcases Classical.em ((h.nodeD nid).owner = some lid) with ho | ho
  · obtain ⟨xs, ys, rfl⟩ := List.mem_iff_append.mp (inv_owner_mem hinv ho)
    obtain ⟨b1, b2, b3, b4, b5, b6, b7⟩ := insertAfterNode_rep hinv.1 v
    refine ⟨xs ++ nid :: h.nodes.length :: ys, b7, ?_⟩
    intro m hm hom
    rcases eq_or_ne m h.nodes.length with rfl | hne
    · simp
    · rw [b6 m hne] at hom
      have := hinv.2 m (by omega) hom
      simp only [List.mem_append, List.mem_cons] at this ⊢
      tauto
  · rw [insertAfterNode_foreign v ho]
    exact ⟨ns, hinv⟩

theorem inv_insertBefore {h : Heap α} {lid : Nat} {ns : List Nat}
    (hinv : Inv h lid ns) (nid : Nat) (v : α) :
    ∃ ns', Inv (insertBeforeNode h lid nid v).1 lid ns' := by
  rcases Classical.em ((h.nodeD nid).owner = some lid) with ho | ho
  · obtain ⟨xs, ys, rfl⟩ := List.mem_iff_append.mp (inv_owner_mem hinv ho)
    obtain ⟨b1, b2, b3, b4, b5, b6, b7⟩ := insertBeforeNode_rep hinv.1 v
    refine ⟨xs ++ h.nodes.length :: nid :: ys, b7, ?_⟩
    intro m hm hom
    rcases eq_or_ne m h.nodes.length with rfl | hne
    · simp
    · rw [b6 m hne] at hom
      have := hinv.2 m (by omega) hom
      simp only [List.mem_append, List.mem_cons] at this ⊢
      tauto
  · rw [insertBeforeNode_foreign v ho]
    exact ⟨ns, hinv⟩

theorem inv_spliceRun {h : Heap α} {lid : Nat} {ns : List Nat} {s : Nat}
    (hinv : Inv h lid ns) (hsle : s ≤ ns.length) (deleteCount : Int) (items : List α) :
    ∃ ns', Inv (spliceRun h lid (ns.drop s).head? deleteCount items).1 lid ns' := by
  obtain ⟨hrep, hcompl⟩ := hinv
  obtain ⟨s1, ids, s2, s3, s4, s5, s6, s7, s8⟩ := spliceRun_rep hrep hsle deleteCount items
  refine ⟨ns.take s ++ ids ++ ns.drop (s + deleteCount.toNat), s2, ?_⟩
  intro m hm hom
  rcases Classical.em (m ∈ ids) with hmi | hmi
  · simp [hmi]
  rcases Classical.em (m ∈ (ns.drop s).take deleteCount.toNat) with hmr | hmr
  · rw [s8 m hmr hmi] at hom
    cases hom
  · rw [s7 m hmi hmr] at hom
    rcases Nat.lt_or_ge m h.nodes.length with hlt | hge
    · have hmem := hcompl m hlt hom
      have hdecomp : ns = ns.take s ++ ((ns.drop s).take deleteCount.toNat
          ++ (ns.drop s).drop deleteCount.toNat) := by
        rw [List.take_append_drop, List.take_append_drop]
      have hdd : (ns.drop s).drop deleteCount.toNat = ns.drop (s + deleteCount.toNat) := by
        rw [List.drop_drop, Nat.add_comm]
      rw [hdecomp, hdd] at hmem
      simp only [List.mem_append] at hmem ⊢
      tauto
    · rw [Heap.nodeD_out _ _ hge] at hom
      cases hom

theorem inv_splice {h : Heap α} {lid : Nat} {ns : List Nat}
    (hinv : Inv h lid ns) (start : SpliceStart) (deleteCount : Int) (items : List α) :
    ∃ ns', Inv (splice h lid start deleteCount items).1 lid ns' := by
  cases start with
  | undef =>
    have hs : StartAt ns .undef ns.length := rfl
    rw [splice_eq_run hinv.1 hs]
    exact inv_spliceRun hinv le_rfl deleteCount items
  | idx i =>
    set c : Int := if i < 0 then max 0 ((ns.length : Int) + i) else min i ns.length with hc
    have hc0 : 0 ≤ c := by
      rw [hc]
      rcases Classical.em (i < 0) with hn | hn
      · rw [if_pos hn]
        exact le_max_left _ _
      · rw [if_neg hn]
        exact le_min (by omega) (Int.natCast_nonneg _)
    have hs : StartAt ns (.idx i) c.toNat := by
      show (c.toNat : Int) = _
      rw [Int.toNat_of_nonneg hc0, hc]
    rw [splice_eq_run hinv.1 hs]
    exact inv_spliceRun hinv (startAt_le hs) deleteCount items
  | node nid =>
    rcases Classical.em ((h.nodeD nid).owner = some lid) with ho | ho
    · have hmem := inv_owner_mem hinv ho
      obtain ⟨k, hklt, hke⟩ := List.getElem_of_mem hmem
      have hs : StartAt ns (.node nid) k := by
        show ns[k]? = some nid
        rw [List.getElem?_eq_getElem hklt, hke]
      rw [splice_eq_run hinv.1 hs]
      exact inv_spliceRun hinv (startAt_le hs) deleteCount items
    · rw [splice_foreign h lid nid deleteCount items ho]
      exact ⟨ns, hinv⟩

theorem inv_clearFuel {lid : Nat} (fuel : Nat) :
    ∀ {h : Heap α} {ns : List Nat}, Inv h lid ns →
      ∃ ns', Inv (clearFuel h lid fuel) lid ns' := by
  induction fuel with
  | zero =>
    intro h ns hinv
    exact ⟨ns, hinv⟩
  | succ fuel ih =>
    intro h ns hinv
    cases hfn : (h.hdr lid).firstNode with
    | none =>
      have hstep : clearFuel h lid (fuel + 1) = h := by
        simp only [clearFuel, hfn]
      rw [hstep]
      exact ⟨ns, hinv⟩
    | some nid =>
      have hstep : clearFuel h lid (fuel + 1) = clearFuel (remove h lid nid).1 lid fuel := by
        simp only [clearFuel, hfn]
      rw [hstep]
      obtain ⟨ns', hinv'⟩ := inv_remove hinv nid
      exact ih hinv'

theorem inv_pop {h : Heap α} {lid : Nat} {ns : List Nat} (hinv : Inv h lid ns) :
    ∃ ns', Inv (pop h lid).1 lid ns' := by
  cases hln : (h.hdr lid).lastNode with
  | none =>
    have hstep : pop h lid = (h, none) := by
      simp only [pop, hln]
    rw [hstep]
    exact ⟨ns, hinv⟩
  | some nid =>
    have hstep : (pop h lid).1 = (remove h lid nid).1 := by
      simp only [pop, hln]
    rw [hstep]
    exact inv_remove hinv nid

theorem inv_shift {h : Heap α} {lid : Nat} {ns : List Nat} (hinv : Inv h lid ns) :
    ∃ ns', Inv (shift h lid).1 lid ns' := by
  cases hfn : (h.hdr lid).firstNode with
  | none =>
    have hstep : shift h lid = (h, none) := by
      simp only [shift, hfn]
    rw [hstep]
    exact ⟨ns, hinv⟩
  | some nid =>
    have hstep : (shift h lid).1 = (remove h lid nid).1 := by
      simp only [shift, hfn]
    rw [hstep]
    exact inv_remove hinv nid

theorem inv_runOp {h : Heap α} {lid : Nat} {ns : List Nat}
    (hinv : Inv h lid ns) (op : Op α) :
    ∃ ns', Inv (runOp h lid op) lid ns' := by
  cases op with
  | appendOp v => exact ⟨_, inv_append hinv v⟩
  | prependOp v => exact ⟨_, inv_prepend hinv v⟩
  | insertAfterOp nid v => exact inv_insertAfter hinv nid v
  | insertBeforeOp nid v => exact inv_insertBefore hinv nid v
  | removeOp nid => exact inv_remove hinv nid
  | spliceOp start deleteCount items => exact inv_splice hinv start deleteCount items
  | clearOp => exact inv_clearFuel _ hinv
  | popOp => exact inv_pop hinv
  | shiftOp => exact inv_shift hinv
  | pushOp v => exact ⟨_, inv_append hinv v⟩
  | unshiftOp v => exact ⟨_, inv_prepend hinv v⟩

theorem runOps_inv (ops : List (Op α)) :
    ∀ {h : Heap α} {lid : Nat} {ns : List Nat}, Inv h lid ns →
      ∃ ns', Inv (runOps h lid ops) lid ns' := by
  induction ops with
  | nil =>
    intro h lid ns hinv
    exact ⟨ns, hinv⟩
  | cons op rest ih =>
    intro h lid ns hinv
    obtain ⟨ns', hinv'⟩ := inv_runOp hinv op
    exact ih hinv'

theorem inv_newList (h : Heap α)
    (hfree : ∀ m, m < h.nodes.length → (h.nodeD m).owner ≠ some h.lists.length) :
    Inv (newList h).1 (newList h).2 [] := by
  refine ⟨newList_rep h, ?_⟩
  intro m hm hom
  exact absurd hom (hfree m hm)

end Inv

/-! ### Pointwise link structure of a represented list -/

theorem chain_next_prev {h : Heap α} {lid : Nat} {ns : List Nat}
    (hrep : ListRep h lid ns) {k a : Nat} (hk : ns[k]? = some a) :
    (h.nodeD a).next = ns[k + 1]? ∧ (h.nodeD a).prev = (ns.take k).getLast? := by
  have hklt : k < ns.length := by
    by_contra hc
    push_neg at hc
    rw [List.getElem?_eq_none hc] at hk
    cases hk
  have hka : ns[k] = a := by
    rw [List.getElem?_eq_getElem hklt] at hk
    exact Option.some.inj hk
  have hdecomp : ns = ns.take k ++ a :: ns.drop (k + 1) := by
    conv_lhs => rw [← List.take_append_drop k ns]
    rw [List.drop_eq_getElem_cons hklt, hka]
  have hchain := hrep.chain
  rw [hdecomp] at hchain
  obtain ⟨hxs, hn1, hn2, hn3, hn4, hn5⟩ :=
    (chainSeg_append (ns.take k) (a :: ns.drop (k + 1))).1 hchain
  constructor
  · rw [hn4, headOr_none, List.head?_drop]
  · rw [hn3, lastOr_none]

/-- The symmetric-link invariant: for two nodes on the list,
`A.next = B` iff `B.prev = A`. -/
theorem listRep_link_iff {h : Heap α} {lid : Nat} {ns : List Nat}
    (hrep : ListRep h lid ns) {a b : Nat} (ha : a ∈ ns) (hb : b ∈ ns) :
    (h.nodeD a).next = some b ↔ (h.nodeD b).prev = some a := by
  constructor
  · intro hab
    obtain ⟨k, hklt, hke⟩ := List.getElem_of_mem ha
    have hka : ns[k]? = some a := by
      rw [List.getElem?_eq_getElem hklt, hke]
    obtain ⟨hnext, -⟩ := chain_next_prev hrep hka
    rw [hab] at hnext
    obtain ⟨-, hprev⟩ := chain_next_prev hrep hnext.symm
    rw [hprev, getLast?_take_succ hklt, hka]
  · intro hba
    obtain ⟨j, hjlt, hje⟩ := List.getElem_of_mem hb
    have hjb : ns[j]? = some b := by
      rw [List.getElem?_eq_getElem hjlt, hje]
    obtain ⟨-, hprev⟩ := chain_next_prev hrep hjb
    rw [hba] at hprev
    cases j with
    | zero =>
      rw [List.take_zero] at hprev
      cases hprev
    | succ j' =>
      rw [getLast?_take_succ (by omega)] at hprev
      obtain ⟨hnext, -⟩ := chain_next_prev hrep hprev.symm
      rw [hnext, hjb]

theorem walkValsBack_chainSeg {h : Heap α} {lid : Nat} : ∀ (ns : List Nat) (q : Option Nat),
    ChainSeg h lid none ns q → ∀ fuel, ns.length ≤ fuel →
    walkValsBack h (lastOr ns none) fuel = (vals h ns).reverse := by
  intro ns
  induction ns using List.reverseRecOn with
  | nil =>
    intro q hc fuel hf
    cases fuel <;> rfl
  | append_singleton xs x ih =>
    intro q hc fuel hf
    obtain ⟨hxs, h1, h2, h3, h4, -⟩ := (chainSeg_append xs [x]).1 hc
    cases fuel with
    | zero => simp at hf
    | succ fuel =>
      rw [lastOr_concat]
      show (h.nodeD x).value :: walkValsBack h (h.nodeD x).prev fuel = _
      rw [h3]
      rw [ih (some x) hxs fuel (by simp at hf; omega)]
      simp

theorem walkValsBack_listRep {h : Heap α} {lid : Nat} {ns : List Nat}
    (hrep : ListRep h lid ns) :
    walkValsBack h (h.hdr lid).lastNode h.nodes.length = (vals h ns).reverse := by
  rw [hrep.last_eq, ← lastOr_none]
  exact walkValsBack_chainSeg ns none hrep.chain _ (listRep_length_le hrep)

end OpRep


/-! ## The claims -/

section Claims

variable [Inhabited α]

theorem vals_take (h : Heap α) (ns : List Nat) (k : Nat) :
    vals h (ns.take k) = (vals h ns).take k := List.map_take ..

theorem vals_drop (h : Heap α) (ns : List Nat) (k : Nat) :
    vals h (ns.drop k) = (vals h ns).drop k := List.map_drop ..

/-- Claim C1: `splice` with a numeric `start` clamps it to `[0, length]`
(a negative `start` becomes `max 0 (length + start)`, a `start` at or above
`length` resolves to the end); exactly
`min (max deleteCount 0) (length - clampedStart)` consecutive values
beginning at the clamped position are removed and returned in their
original order, and the list keeps its remaining values in their original
relative order. -/
theorem claim_C1 {h : Heap α} {lid : Nat} {ns : List Nat}
    (hrep : ListRep h lid ns) (start deleteCount : Int) :
    ∃ s : Nat,
      (s : Int) = (if start < 0 then max 0 (((toArray h lid).length : Int) + start)
          else min start ((toArray h lid).length : Int)) ∧
      (splice h lid (.idx start) deleteCount []).2
          = ((toArray h lid).drop s).take deleteCount.toNat ∧
      ((splice h lid (.idx start) deleteCount []).2).length
          = min (max deleteCount 0).toNat ((toArray h lid).length - s) ∧
      toArray (splice h lid (.idx start) deleteCount []).1 lid
          = (toArray h lid).take s ++ (toArray h lid).drop (s + deleteCount.toNat) := by
  have hta : toArray h lid = vals h ns := toArray_rep hrep
  have hlen : (toArray h lid).length = ns.length := by rw [hta, vals_length]
  set c : Int := if start < 0 then max 0 ((ns.length : Int) + start)
      else min start (ns.length : Int) with hc
  have hc0 : 0 ≤ c := by
    rw [hc]
    rcases Classical.em (start < 0) with hn | hn
    · rw [if_pos hn]
      exact le_max_left _ _
    · rw [if_neg hn]
      exact le_min (by omega) (Int.natCast_nonneg _)
  have hs : StartAt ns (.idx start) c.toNat := by
    show (c.toNat : Int) = _
    rw [Int.toNat_of_nonneg hc0, hc]
  have hrun : splice h lid (.idx start) deleteCount []
      = spliceRun h lid (ns.drop c.toNat).head? deleteCount [] :=
    splice_eq_run hrep hs deleteCount []
  obtain ⟨s1, ids, s2, s3, s4, s5, s6, s7, s8⟩ :=
    spliceRun_rep hrep (startAt_le hs) deleteCount ([] : List α)
  have hids : ids = [] := by
    have hlen0 := congrArg List.length s4
    rw [vals_length] at hlen0
    exact List.eq_nil_of_length_eq_zero hlen0
  subst hids
  refine ⟨c.toNat, by rw [hlen]; exact hs, ?_, ?_, ?_⟩
  · rw [hrun, s1, hta, vals_take, vals_drop]
  · rw [hrun, s1, vals_length, List.length_take, List.length_drop, hlen]
    have hmax : (max deleteCount 0).toNat = deleteCount.toNat := by
      rcases max_choice deleteCount 0 with hm | hm <;> rw [hm] <;> omega
    rw [hmax]
  · have hrep' : ListRep (spliceRun h lid (ns.drop c.toNat).head? deleteCount []).1 lid
        (ns.take c.toNat ++ ns.drop (c.toNat + deleteCount.toNat)) := by simpa using s2
    rw [hrun, toArray_rep hrep', vals_append]
    rw [show vals (spliceRun h lid (ns.drop c.toNat).head? deleteCount []).1 (ns.take c.toNat)
        = vals h (ns.take c.toNat) from s3]
    rw [show vals (spliceRun h lid (ns.drop c.toNat).head? deleteCount []).1
          (ns.drop (c.toNat + deleteCount.toNat))
        = vals h (ns.drop (c.toNat + deleteCount.toNat)) from s5]
    rw [hta, vals_take, vals_drop]

theorem claim_C1_witness :
    ListRep W 0 [0, 1, 2, 3] ∧
    (∃ s : Nat,
      (s : Int) = (if (-3 : Int) < 0 then max 0 (((toArray W 0).length : Int) + (-3))
          else min (-3) ((toArray W 0).length : Int)) ∧
      (splice W 0 (.idx (-3)) 2 []).2 = ((toArray W 0).drop s).take (2 : Int).toNat ∧
      ((splice W 0 (.idx (-3)) 2 []).2).length
          = min (max (2 : Int) 0).toNat ((toArray W 0).length - s) ∧
      toArray (splice W 0 (.idx (-3)) 2 []).1 0
          = (toArray W 0).take s ++ (toArray W 0).drop (s + (2 : Int).toNat)) :=
  ⟨by decide, @claim_C1 Nat _ W 0 [0, 1, 2, 3] (by decide) (-3) 2⟩

/-- Claim C2: after the deletion phase of `splice`, the items are inserted
as a consecutive run, in their given order, between the prefix before the
deleted span and the suffix after it (and appended at the tail when no node
follows the deleted span): the final value sequence is always
prefix ++ items ++ suffix. -/
theorem claim_C2 {h : Heap α} {lid : Nat} {ns : List Nat} {start : SpliceStart} {s : Nat}
    (hrep : ListRep h lid ns) (hs : StartAt ns start s) (deleteCount : Int)
    {items : List α} (hitems : items ≠ []) :
    toArray (splice h lid start deleteCount items).1 lid
        = (toArray h lid).take s ++ items ++ (toArray h lid).drop (s + deleteCount.toNat) ∧
    (splice h lid start deleteCount items).2
        = ((toArray h lid).drop s).take deleteCount.toNat := by
  have hta : toArray h lid = vals h ns := toArray_rep hrep
  have hrun : splice h lid start deleteCount items
      = spliceRun h lid (ns.drop s).head? deleteCount items :=
    splice_eq_run hrep hs deleteCount items
  obtain ⟨s1, ids, s2, s3, s4, s5, s6, s7, s8⟩ :=
    spliceRun_rep hrep (startAt_le hs) deleteCount items
  constructor
  · rw [hrun, toArray_rep s2, vals_append, vals_append, s3, s4, s5, hta,
      vals_take, vals_drop]
  · rw [hrun, s1, vals_take, vals_drop, hta]

theorem claim_C2_witness :
    ListRep W 0 [0, 1, 2, 3] ∧ StartAt [0, 1, 2, 3] (.idx 1) 1 ∧
    ([99, 98] : List Nat) ≠ [] ∧
    (toArray (splice W 0 (.idx 1) 2 [99, 98]).1 0
        = (toArray W 0).take 1 ++ [99, 98] ++ (toArray W 0).drop (1 + (2 : Int).toNat) ∧
      (splice W 0 (.idx 1) 2 [99, 98]).2 = ((toArray W 0).drop 1).take (2 : Int).toNat) :=
  ⟨by decide, by decide, by decide,
    @claim_C2 Nat _ W 0 [0, 1, 2, 3] (.idx 1) 1 (by decide) (by decide) 2 [99, 98] (by decide)⟩

/-- Claim C3: `splice` whose `start` is a node not owned by the list (a
node of a different list, or an already-removed node) is a complete no-op:
the heap is unchanged — no deletion and no insertion, even when items are
supplied — and the removed-list comes back empty. -/
theorem claim_C3 (h : Heap α) (lid : Nat) (nid : Nat)
    (ho : (h.nodeD nid).owner ≠ some lid) (deleteCount : Int) (items : List α) :
    splice h lid (.node nid) deleteCount items = (h, []) :=
  splice_foreign h lid nid deleteCount items ho

theorem claim_C3_witness :
    (W2.nodeD 4).owner ≠ some 0 ∧ splice W2 0 (.node 4) 3 [7] = (W2, []) :=
  ⟨by decide, claim_C3 W2 0 4 (by decide) 3 [7]⟩

/-- Claim C4: after any sequence of public mutating operations starting
from an empty list, well-formedness holds: `length` equals the number of
values reachable from the head via `next` and the number reachable from the
tail via `prev`; `A.next = B` iff `B.prev = A` for nodes of the list; the
head has no predecessor and the tail no successor; and the head is absent
exactly when the tail is. -/
theorem claim_C4 (ops : List (Op α)) :
    ((toArray (runFromEmpty ops) 0).length : Int) = ((runFromEmpty ops).hdr 0).length ∧
    ((toArrayBack (runFromEmpty ops) 0).length : Int) = ((runFromEmpty ops).hdr 0).length ∧
    (∀ a b : Nat, ((runFromEmpty ops).nodeD a).owner = some 0 →
        ((runFromEmpty ops).nodeD b).owner = some 0 →
        (((runFromEmpty ops).nodeD a).next = some b ↔
          ((runFromEmpty ops).nodeD b).prev = some a)) ∧
    (∀ f, ((runFromEmpty ops).hdr 0).firstNode = some f →
        ((runFromEmpty ops).nodeD f).prev = none) ∧
    (∀ t, ((runFromEmpty ops).hdr 0).lastNode = some t →
        ((runFromEmpty ops).nodeD t).next = none) ∧
    (((runFromEmpty ops).hdr 0).firstNode = none ↔
      ((runFromEmpty ops).hdr 0).lastNode = none) := by
  have h0 : Inv (newList (⟨[], []⟩ : Heap α)).1 0 [] :=
    inv_newList (⟨[], []⟩ : Heap α) (fun m hm => absurd hm (by simp))
  obtain ⟨ns, hinv0⟩ := runOps_inv ops h0
  have hinv : Inv (runFromEmpty ops) 0 ns := hinv0
  have hrep := hinv.1
  refine ⟨?_, ?_, ?_, ?_, ?_, ?_⟩
  · rw [toArray_rep hrep, vals_length, hrep.len_eq]
  · have hb : toArrayBack (runFromEmpty ops) 0
        = (vals (runFromEmpty ops) ns).reverse := walkValsBack_listRep hrep
    rw [hb, List.length_reverse, vals_length, hrep.len_eq]
  · intro a b ha hb
    exact listRep_link_iff hrep (inv_owner_mem hinv ha) (inv_owner_mem hinv hb)
  · intro f hf
    have hf0 : ns[0]? = some f := by
      rw [show ns[0]? = ns.head? from by cases ns <;> simp, ← hrep.first_eq]
      exact hf
    obtain ⟨-, hprev⟩ := chain_next_prev hrep hf0
    simpa using hprev
  · intro t ht
    have hgl : ns.getLast? = some t := by
      rw [← hrep.last_eq]
      exact ht
    have hlen1 : 0 < ns.length := by
      cases ns with
      | nil => cases hgl
      | cons x xs => simp
    have ht? : ns[ns.length - 1]? = some t := by
      rw [← List.getLast?_eq_getElem?]
      exact hgl
    obtain ⟨hnext, -⟩ := chain_next_prev hrep ht?
    rw [hnext, show ns.length - 1 + 1 = ns.length from by omega]
    exact List.getElem?_eq_none le_rfl
  · rw [hrep.first_eq, hrep.last_eq, List.head?_eq_none_iff, List.getLast?_eq_none_iff]

/-- Claim C5: `getNodeAt` normalizes a negative index to `length + index`,
returns `undefined` exactly when the normalized index lies outside
`[0, length)`, and otherwise returns the node reached by following `next`
from the head (normalized index) times — whichever traversal direction it
actually takes; `get` returns that node's value. -/
theorem claim_C5 {h : Heap α} {lid : Nat} {ns : List Nat}
    (hrep : ListRep h lid ns) (i : Int) :
    getNodeAt h lid i =
      (if 0 ≤ (if i < 0 then (ns.length : Int) + i else i) ∧
          (if i < 0 then (ns.length : Int) + i else i) < (ns.length : Int)
        then walkNext h (h.hdr lid).firstNode
          (if i < 0 then (ns.length : Int) + i else i).toNat
        else none) ∧
    get h lid i = (getNodeAt h lid i).map (fun nid => (h.nodeD nid).value) := by
  refine ⟨?_, rfl⟩
  rw [getNodeAt_rep hrep i]
  rcases Classical.em (0 ≤ (if i < 0 then (ns.length : Int) + i else i) ∧
      (if i < 0 then (ns.length : Int) + i else i) < (ns.length : Int)) with hin | hout
  · rw [if_pos hin, if_pos hin]
    exact (walkNext_listRep hrep _ (by omega)).symm
  · rw [if_neg hout, if_neg hout]

theorem claim_C5_witness :
    ListRep W 0 [0, 1, 2, 3] ∧
    (getNodeAt W 0 (-1) =
      (if 0 ≤ (if (-1 : Int) < 0 then (([0, 1, 2, 3] : List Nat).length : Int) + (-1)
            else (-1)) ∧
          (if (-1 : Int) < 0 then (([0, 1, 2, 3] : List Nat).length : Int) + (-1)
            else (-1)) < (([0, 1, 2, 3] : List Nat).length : Int)
        then walkNext W (W.hdr 0).firstNode
          (if (-1 : Int) < 0 then (([0, 1, 2, 3] : List Nat).length : Int) + (-1)
            else (-1)).toNat
        else none) ∧
      get W 0 (-1) = (getNodeAt W 0 (-1)).map (fun nid => (W.nodeD nid).value)) :=
  ⟨by decide, @claim_C5 Nat _ W 0 [0, 1, 2, 3] (by decide) (-1)⟩

/-- Claim C6: `remove` of a node whose owner is not this list returns
`false` and mutates nothing; removing a node of the list succeeds, and a
second `remove` of the same node returns `false` and leaves the heap as the
first removal left it. -/
theorem claim_C6 {h : Heap α} {lid : Nat} {ns : List Nat} (hrep : ListRep h lid ns) :
    (∀ nid, (h.nodeD nid).owner ≠ some lid → remove h lid nid = (h, false)) ∧
    (∀ xs nid ys, ns = xs ++ nid :: ys →
      (remove h lid nid).2 = true ∧
      remove (remove h lid nid).1 lid nid = ((remove h lid nid).1, false)) := by
  refine ⟨fun nid ho => remove_foreign hrep ho, ?_⟩
  intro xs nid ys hdecomp
  subst hdecomp
  obtain ⟨r1, r2, r3, r4, r5, r6, r7⟩ := remove_rep hrep
  refine ⟨r1, remove_foreign r7 ?_⟩
  rw [r6]
  simp

theorem claim_C6_witness :
    ListRep W2 0 [0, 1, 2, 3] ∧
    ((∀ nid, (W2.nodeD nid).owner ≠ some 0 → remove W2 0 nid = (W2, false)) ∧
      (∀ xs nid ys, ([0, 1, 2, 3] : List Nat) = xs ++ nid :: ys →
        (remove W2 0 nid).2 = true ∧
        remove (remove W2 0 nid).1 0 nid = ((remove W2 0 nid).1, false))) :=
  ⟨by decide, @claim_C6 Nat _ W2 0 [0, 1, 2, 3] (by decide)⟩

/-- Claim C7: `splice(i, 0)` with no items never mutates the list, for any
integer `i`, valid or not: the heap is returned unchanged together with an
empty removed-list. -/
theorem claim_C7 (h : Heap α) (lid : Nat) (i : Int) :
    splice h lid (.idx i) 0 [] = (h, []) :=
  spliceRun_zero h lid _

/-- Claim C8: under the list's well-formedness invariant, a node owned by
the list that is neither the head nor the tail has both neighbours defined
— so the unguarded `previousNode!`/`nextNode!` dereferences in `remove`'s
middle branch and in the insertion helpers cannot hit `undefined`. -/
theorem claim_C8 {h : Heap α} {lid : Nat} {ns : List Nat} (hinv : Inv h lid ns)
    (nid : Nat) (ho : (h.nodeD nid).owner = some lid)
    (hnf : (h.hdr lid).firstNode ≠ some nid) (hnl : (h.hdr lid).lastNode ≠ some nid) :
    ((h.nodeD nid).prev).isSome = true ∧ ((h.nodeD nid).next).isSome = true := by
  have hrep := hinv.1
  have hmem := inv_owner_mem hinv ho
  obtain ⟨k, hklt, hke⟩ := List.getElem_of_mem hmem
  have hk? : ns[k]? = some nid := by rw [List.getElem?_eq_getElem hklt, hke]
  obtain ⟨hnext, hprev⟩ := chain_next_prev hrep hk?
  have hk0 : k ≠ 0 := by
    intro h0
    subst h0
    apply hnf
    rw [hrep.first_eq, show ns.head? = ns[0]? from by cases ns <;> simp]
    exact hk?
  have hklast : k + 1 ≠ ns.length := by
    intro hEq
    apply hnl
    rw [hrep.last_eq, List.getLast?_eq_getElem?,
      show ns.length - 1 = k from by omega]
    exact hk?
  constructor
  · rw [hprev, show k = k - 1 + 1 from by omega, getLast?_take_succ (by omega),
      List.getElem?_eq_getElem (by omega)]
    rfl
  · rw [hnext, List.getElem?_eq_getElem (by omega)]
    rfl

theorem claim_C8_witness :
    Inv W 0 [0, 1, 2, 3] ∧ (W.nodeD 2).owner = some 0 ∧
    (W.hdr 0).firstNode ≠ some 2 ∧ (W.hdr 0).lastNode ≠ some 2 ∧
    (((W.nodeD 2).prev).isSome = true ∧ ((W.nodeD 2).next).isSome = true) :=
  ⟨by decide, by decide, by decide, by decide,
    @claim_C8 Nat _ W 0 [0, 1, 2, 3] (by decide) 2 (by decide) (by decide) (by decide)⟩

/-- Claim C9: rebuilding a list from `toArray`'s result (handed in order to
the constructor, which appends each element) and reading it back with
`toArray` reproduces exactly the original value sequence. -/
theorem claim_C9 (h : Heap α) (lid : Nat) :
    toArray (constructList h (toArray h lid)).1 (constructList h (toArray h lid)).2
      = toArray h lid := by
  obtain ⟨ids, hrep, hvals⟩ := constructList_rep (toArray h lid) h
  rw [toArray_rep hrep, hvals]

/-- Claim C10: a negative `fromIndex` is not an offset from the end:
`indexOf` (and so `includes`) with a negative `fromIndex` behaves exactly
like a search from the beginning. -/
theorem claim_C10 [DecidableEq α] (h : Heap α) (lid : Nat) (x : α) (fromIndex : Int)
    (hf : fromIndex < 0) :
    indexOf h lid x fromIndex = indexOf h lid x 0 ∧
    includes h lid x fromIndex = includes h lid x 0 := by
  have h1 := indexOf_neg_fromIndex h lid x fromIndex (le_of_lt hf)
  refine ⟨h1, ?_⟩
  unfold includes
  rw [h1]

theorem claim_C10_witness :
    (-2 : Int) < 0 ∧
    (indexOf W 0 30 (-2) = indexOf W 0 30 0 ∧ includes W 0 30 (-2) = includes W 0 30 0) :=
  ⟨by decide, claim_C10 W 0 30 (-2) (by decide)⟩

end Claims


end DLL
